import Mathlib

/-
Verification of the population and dependency-orchestration engine of
sqlsynthgen, shallowly embedded from the Python sources:
  - sqlsynthgen/utils.py   (topological_sort, sorted_non_vocabulary_tables,
                            remove_vocab_foreign_key_constraints)
  - sqlsynthgen/create.py  (_populate_story, populate, create_db_data,
                            create_db_vocab)
  - sqlsynthgen/unique_generator.py (not shipped in this tree; modelled from
                            the specification, see UniqueGenerator below)

Conventions of the embedding:
  - Python dicts become association lists with string keys; `dlookup` is
    Python `d[k]`/`d.get(k)` (first matching key) and `dictMerge a b` is the
    Python merge `\x7b**a, **b\x7d` (keys of `a` in order, values overridden
    by `b`, then the new keys of `b`).
  - Python sets are represented by duplicate-free lists; the arbitrary
    iteration order of a Python set becomes the order of the list, so every
    theorem proved for all lists covers every possible iteration order.
  - Python `list.pop()` removes the last element; a pending list that the
    source pops from the tail is stored reversed here and popped from the
    head.
  - Database effects are explicit: the connection state is a list of rows or
    of foreign-key constraints, a transaction accumulates its writes in a
    `pending` list that is appended on commit and dropped on rollback, and
    fallible database calls are oracles returning `Except`/outcome values.
-/

namespace SqlSynthGen

/-! ## Python dictionaries as association lists -/

/-- Python dictionary lookup `d[k]` (first entry with the given key). -/
def dlookup {V : Type} (k : String) : List (String × V) → Option V
  | [] => none
  | (k2, v) :: rest => if k2 = k then some v else dlookup k rest

/-- Python dict merge `\x7b**a, **b\x7d`: the keys of `a` in order with values
overridden by `b` where present, followed by the keys of `b` absent from
`a`. -/
def dictMerge {V : Type} (a b : List (String × V)) : List (String × V) :=
  (a.map (fun kv =>
    match dlookup kv.1 b with
    | some v => (kv.1, v)
    | none => kv))
  ++ b.filter (fun kv => (dlookup kv.1 a).isNone)

theorem dlookup_append {V : Type} (k : String) (a b : List (String × V)) :
    dlookup k (a ++ b) =
      match dlookup k a with
      | some v => some v
      | none => dlookup k b := by
  induction a with
  | nil => simp [dlookup]
  | cons kv rest ih =>
    by_cases h : kv.1 = k
    · simp [dlookup, h]
    · simpa [dlookup, h] using ih

theorem dlookup_map_override {V : Type} (k : String) (a b : List (String × V)) :
    dlookup k (a.map (fun kv =>
      match dlookup kv.1 b with
      | some v => (kv.1, v)
      | none => kv)) =
      match dlookup k a with
      | some v =>
        match dlookup k b with
        | some w => some w
        | none => some v
      | none => none := by
  induction a with
  | nil => simp [dlookup]
  | cons kv rest ih =>
    by_cases h : kv.1 = k
    · subst h
      cases hb : dlookup kv.1 b <;> simp [dlookup, hb]
    · cases hkb : dlookup kv.1 b <;> simp [dlookup, h, hkb, ih]

/-- In the merged dict, a key present in `b` gets the value of `b`. -/
theorem dlookup_dictMerge_right {V : Type} (k : String) (v : V)
    (a b : List (String × V)) (h : dlookup k b = some v) :
    dlookup k (dictMerge a b) = some v := by
  unfold dictMerge
  rw [dlookup_append, dlookup_map_override]
  cases ha : dlookup k a with
  | some w => simp [h]
  | none =>
    simp only [h]
    induction b with
    | nil => simp [dlookup] at h
    | cons kv rest ih =>
      by_cases hk : kv.1 = k
      · subst hk
        simp [dlookup] at h
        simp [List.filter, dlookup, ha, h]
      · simp [dlookup, hk] at h
        by_cases hmem : (dlookup kv.1 a).isNone
        · simp [List.filter, hmem, dlookup, hk]
          exact ih h
        · simp [List.filter, hmem]
          exact ih h

/-- In the merged dict, a key absent from `b` keeps the value of `a`. -/
theorem dlookup_dictMerge_left {V : Type} (k : String)
    (a b : List (String × V)) (h : dlookup k b = none) :
    dlookup k (dictMerge a b) = dlookup k a := by
  unfold dictMerge
  rw [dlookup_append, dlookup_map_override]
  cases ha : dlookup k a with
  | some w => simp [h]
  | none =>
    simp only [h]
    induction b with
    | nil => simp [dlookup]
    | cons kv rest ih =>
      by_cases hk : kv.1 = k
      · subst hk
        simp [dlookup] at h
      · simp [dlookup, hk] at h
        by_cases hmem : (dlookup kv.1 a).isNone
        · simp [List.filter, hmem, dlookup, hk]
          exact ih h
        · simp [List.filter, hmem]
          exact ih h

/-! ## Dependency resolver: `topological_sort` (sqlsynthgen/utils.py)

The Python function keeps three disjoint collections: `white` (input nodes
not yet considered), the parallel stacks `grey`/`nextss` (nodes under
consideration with their unconsumed dependencies), and `black` (the output,
appended in post-order), plus the list of detected `cycles`.  Here the two
parallel stacks become one stack of pairs whose head is the Python top of
stack, so the Python slice `grey[cycle_start:len(grey)]` (from the
re-encountered node up to the top) becomes
`(takeWhile (not equal) ++ [n]).reverse` of the head-first stack; Python's
`grey.index(n)` scans from the bottom and `takeWhile` from the top, which
agree because `grey` never holds a node twice (the `nodup` field of
`TopoInv` below).  Each frame's unconsumed dependency list is stored
reversed because Python `list.pop()` takes the tail. -/

variable {α : Type} [DecidableEq α]

/-- The body of the two nested `while` loops of `topological_sort`. -/
def topoLoop (deps : α → List α) :
    List α → List (α × List α) → List α → List (List α) →
      (List α × List (List α))
  | white, [], black, cycles =>
    match white with
    | [] => (black, cycles)
    | w :: ws => topoLoop deps ws [(w, (deps w).reverse)] black cycles
  | white, (g, pending) :: rest, black, cycles =>
    match pending with
    | [] => topoLoop deps white rest (black ++ [g]) cycles
    | n :: ns =>
      if hw : n ∈ white then
        topoLoop deps (white.erase n)
          ((n, (deps n).reverse) :: (g, ns) :: rest) black cycles
      else if n ∈ g :: rest.map Prod.fst then
        topoLoop deps white ((g, ns) :: rest) black
          (cycles ++
            [(((g :: rest.map Prod.fst).takeWhile (· ≠ n)) ++ [n]).reverse])
      else
        topoLoop deps white ((g, ns) :: rest) black cycles
termination_by white stack _ _ =>
  (white.length, stack.length + (stack.map (fun f => f.2.length)).sum)
decreasing_by
  · apply Prod.Lex.left; simp
  · apply Prod.Lex.right; simp
  · apply Prod.Lex.left
    have h := List.length_erase_of_mem hw
    have hpos : 0 < white.length := List.length_pos.mpr (List.ne_nil_of_mem hw)
    omega
  · apply Prod.Lex.right; simp
  · apply Prod.Lex.right; simp

/-- `topological_sort(input_nodes, get_dependencies_fn)` from
sqlsynthgen/utils.py.  `set(input_nodes)` discards duplicates; the arbitrary
iteration order of the Python set is represented by the (first-occurrence)
order of the input list. -/
def topological_sort (input_nodes : List α) (get_dependencies_fn : α → List α) :
    List α × List (List α) :=
  topoLoop get_dependencies_fn input_nodes.dedup [] [] []

/-- The output list is a permutation of `black ++ grey-nodes ++ white`:
nodes are never created, lost or duplicated by the loop. -/
theorem topoLoop_perm (deps : α → List α) :
    ∀ (white : List α) (stack : List (α × List α)) (black : List α)
      (cycles : List (List α)),
      (topoLoop deps white stack black cycles).1.Perm
        (black ++ stack.map Prod.fst ++ white) := by
  apply topoLoop.induct deps
    (fun white stack black cycles =>
      (topoLoop deps white stack black cycles).1.Perm
        (black ++ stack.map Prod.fst ++ white))
  · intro black cycles
    simp [topoLoop]
  · intro black cycles w ws ih
    rw [topoLoop]
    refine ih.trans ?_
    simp [List.append_assoc]
  · intro white g rest black cycles ih
    rw [topoLoop]
    refine ih.trans ?_
    simp [List.append_assoc]
  · intro white g rest black cycles n ns hw ih
    rw [topoLoop]
    simp only [hw, dif_pos]
    refine ih.trans ?_
    show (black ++ (n :: g :: rest.map Prod.fst) ++ white.erase n).Perm
        (black ++ (g :: rest.map Prod.fst) ++ white)
    rw [List.append_assoc, List.append_assoc]
    refine List.Perm.append_left black ?_
    show (n :: ((g :: rest.map Prod.fst) ++ white.erase n)).Perm
        ((g :: rest.map Prod.fst) ++ white)
    refine List.Perm.trans List.perm_middle.symm ?_
    exact List.Perm.append_left _ (List.perm_cons_erase hw).symm
  · intro white g rest black cycles n ns hw hg ih
    rw [topoLoop]
    simp only [hw, dif_neg, not_false_iff, hg, if_pos]
    simpa using ih
  · intro white g rest black cycles n ns hw hg ih
    rw [topoLoop]
    simp only [hw, dif_neg, not_false_iff, hg, if_neg]
    simpa using ih

/-- The multiset of nodes the loop is working on: input nodes are always
distributed among `white`, the stack and `black`. -/
def topoUnion (white : List α) (stack : List (α × List α)) (black : List α) :
    List α :=
  white ++ stack.map Prod.fst ++ black

/-- Every dependency of every stack frame has either not been consumed yet
(`pend`), or was found finished (`black`), or was pushed above this frame
(`above`), or closed a recorded cycle through this frame, or is not an input
node at all (`∉ U`). -/
def frameProp (deps : α → List α) (U black : List α)
    (cycles : List (List α)) : List α → List (α × List α) → Prop
  | _, [] => True
  | above, (u, pend) :: below =>
    (∀ v ∈ deps u, v ∈ pend ∨ v ∈ black ∨ v ∈ above ∨
      (∃ c ∈ cycles, u ∈ c ∧ v ∈ c) ∨ v ∉ U) ∧
    frameProp deps U black cycles (u :: above) below

theorem frameProp_weaken (deps : α → List α)
    (U U2 black black2 : List α) (cycles cycles2 : List (List α)) :
    ∀ (stack : List (α × List α)) (above above2 : List α),
      frameProp deps U black cycles above stack →
      (∀ v, v ∈ above → v ∈ above2 ∨ v ∈ black2) →
      (∀ v, v ∈ black → v ∈ black2) →
      (∀ c, c ∈ cycles → c ∈ cycles2) →
      (∀ v, v ∉ U → v ∉ U2) →
      frameProp deps U2 black2 cycles2 above2 stack
  | [], _, _, _, _, _, _, _ => trivial
  | (u, pend) :: below, above, above2, h, hab, hb, hc, hU => by
    refine ⟨?_, ?_⟩
    · intro v hv
      rcases h.1 v hv with h1 | h1 | h1 | h1 | h1
      · exact Or.inl h1
      · exact Or.inr (Or.inl (hb v h1))
      · rcases hab v h1 with h2 | h2
        · exact Or.inr (Or.inr (Or.inl h2))
        · exact Or.inr (Or.inl h2)
      · rcases h1 with ⟨c, hcm, hc1, hc2⟩
        exact Or.inr (Or.inr (Or.inr (Or.inl ⟨c, hc c hcm, hc1, hc2⟩)))
      · exact Or.inr (Or.inr (Or.inr (Or.inr (hU v h1))))
    · refine frameProp_weaken deps U U2 black black2 cycles cycles2
        below (u :: above) (u :: above2) h.2 ?_ hb hc hU
      intro v hv
      rcases List.mem_cons.mp hv with h2 | h2
      · exact Or.inl (List.mem_cons.mpr (Or.inl h2))
      · rcases hab v h2 with h3 | h3
        · exact Or.inl (List.mem_cons.mpr (Or.inr h3))
        · exact Or.inr h3

/-- The loop invariant of `topological_sort`. -/
structure TopoInv (deps : α → List α) (white : List α)
    (stack : List (α × List α)) (black : List α)
    (cycles : List (List α)) : Prop where
  nodup : (topoUnion white stack black).Nodup
  chain : List.Chain' (fun a b => a ∈ deps b) (stack.map Prod.fst)
  pends : ∀ fr ∈ stack, ∀ v ∈ fr.2, v ∈ deps fr.1
  frames : frameProp deps (topoUnion white stack black) black cycles [] stack
  blackOrd : ∀ u ∈ black, ∀ v ∈ deps u, List.Sublist [v, u] black ∨
    (∃ c ∈ cycles, u ∈ c ∧ v ∈ c) ∨ v ∉ topoUnion white stack black
  cyc : ∀ c ∈ cycles, c ≠ [] ∧
    (∀ x ∈ c, x ∈ topoUnion white stack black) ∧
    List.Chain' (fun a b => b ∈ deps a) c ∧
    (∀ x y, c.head? = some x → c.getLast? = some y → x ∈ deps y)

theorem unionPerm_outer (w : α) (ws black : List α) (p : List α) :
    (topoUnion (w :: ws) ([] : List (α × List α)) black).Perm
      (topoUnion ws [(w, p)] black) := by
  unfold topoUnion
  refine List.Perm.append_right black ?_
  simpa using (List.perm_append_singleton w ws).symm

theorem unionPerm_pop (g : α) (p : List α) (white black : List α)
    (rest : List (α × List α)) :
    (topoUnion white ((g, p) :: rest) black).Perm
      (topoUnion white rest (black ++ [g])) := by
  unfold topoUnion
  rw [List.append_assoc, List.append_assoc]
  refine List.Perm.append_left white ?_
  show (g :: (rest.map Prod.fst ++ black)).Perm
    (rest.map Prod.fst ++ (black ++ [g]))
  rw [← List.append_assoc]
  exact (List.perm_append_singleton g _).symm

theorem unionPerm_push (n g : α) (white black : List α) (p1 p2 p3 : List α)
    (rest : List (α × List α)) (hw : n ∈ white) :
    (topoUnion white ((g, p1) :: rest) black).Perm
      (topoUnion (white.erase n) ((n, p2) :: (g, p3) :: rest) black) := by
  unfold topoUnion
  refine List.Perm.append_right black ?_
  show (white ++ g :: rest.map Prod.fst).Perm
    (white.erase n ++ n :: g :: rest.map Prod.fst)
  refine List.Perm.trans
    (List.Perm.append_right _ (List.perm_cons_erase hw)) ?_
  show (n :: (white.erase n ++ g :: rest.map Prod.fst)).Perm
    (white.erase n ++ n :: g :: rest.map Prod.fst)
  exact List.perm_middle.symm

/-- Invariant transfer: popping a node from `white` and opening its frame. -/
theorem TopoInv_outer (deps : α → List α) (w : α) (ws black : List α)
    (cycles : List (List α)) (h : TopoInv deps (w :: ws) [] black cycles) :
    TopoInv deps ws [(w, (deps w).reverse)] black cycles := by
  have hperm := unionPerm_outer w ws black (deps w).reverse
  refine ⟨?_, ?_, ?_, ?_, ?_, ?_⟩
  · exact hperm.nodup h.nodup
  · simp
  · intro fr hfr v hv
    simp only [List.mem_singleton] at hfr
    subst hfr
    simpa using hv
  · refine ⟨?_, trivial⟩
    intro v hv
    exact Or.inl (List.mem_reverse.mpr hv)
  · intro u hu v hv
    rcases h.blackOrd u hu v hv with h1 | h1 | h1
    · exact Or.inl h1
    · exact Or.inr (Or.inl h1)
    · exact Or.inr (Or.inr (fun hm => h1 (hperm.mem_iff.mpr hm)))
  · intro c hc
    obtain ⟨h1, h2, h3, h4⟩ := h.cyc c hc
    exact ⟨h1, fun x hx => hperm.mem_iff.mp (h2 x hx), h3, h4⟩

/-- Invariant transfer: a frame with no unconsumed dependencies is popped
into `black`. -/
theorem TopoInv_pop (deps : α → List α) (g : α) (white black : List α)
    (rest : List (α × List α)) (cycles : List (List α))
    (h : TopoInv deps white ((g, []) :: rest) black cycles) :
    TopoInv deps white rest (black ++ [g]) cycles := by
  have hperm := unionPerm_pop g [] white black rest
  have hgU : g ∈ topoUnion white ((g, ([] : List α)) :: rest) black := by
    unfold topoUnion
    simp
  have hnotblack : g ∉ black := by
    intro hgb
    have hnd := h.nodup
    unfold topoUnion at hnd
    rw [List.append_assoc] at hnd
    rcases (List.nodup_append.mp hnd) with ⟨_, hnd2, _⟩
    rcases (List.nodup_append.mp hnd2) with ⟨_, _, hdisj⟩
    exact hdisj (by simp) hgb
  have hfr := h.frames
  unfold frameProp at hfr
  refine ⟨?_, ?_, ?_, ?_, ?_, ?_⟩
  · exact hperm.nodup h.nodup
  · have hc := h.chain
    simp only [List.map_cons] at hc
    exact hc.tail
  · intro fr hfr2 v hv
    exact h.pends fr (List.mem_cons_of_mem _ hfr2) v hv
  · refine frameProp_weaken deps _ _ black (black ++ [g]) cycles cycles
      rest [g] [] hfr.2 ?_ ?_ (fun c hc => hc) ?_
    · intro v hv
      simp only [List.mem_singleton] at hv
      subst hv
      exact Or.inr (by simp)
    · intro v hv
      exact List.mem_append_left _ hv
    · intro v hv hm
      exact hv (hperm.mem_iff.mpr hm)
  · intro u hu v hv
    rcases List.mem_append.mp hu with hu1 | hu1
    · rcases h.blackOrd u hu1 v hv with h1 | h1 | h1
      · exact Or.inl (h1.trans (List.sublist_append_left black [g]))
      · exact Or.inr (Or.inl h1)
      · refine Or.inr (Or.inr (fun hm => h1 (hperm.mem_iff.mpr hm)))
    · simp only [List.mem_singleton] at hu1
      subst hu1
      rcases hfr.1 v hv with h1 | h1 | h1 | h1 | h1
      · exact absurd h1 (List.not_mem_nil v)
      · exact Or.inl (List.Sublist.append
          (List.singleton_sublist.mpr h1) (List.Sublist.refl [u]))
      · exact absurd h1 (List.not_mem_nil v)
      · exact Or.inr (Or.inl h1)
      · refine Or.inr (Or.inr (fun hm => h1 (hperm.mem_iff.mpr hm)))
  · intro c hc
    obtain ⟨h1, h2, h3, h4⟩ := h.cyc c hc
    exact ⟨h1, fun x hx => hperm.mem_iff.mp (h2 x hx), h3, h4⟩

/-- Invariant transfer: an unvisited dependency is moved from `white` onto
the stack. -/
theorem TopoInv_push (deps : α → List α) (n g : α) (white black ns : List α)
    (rest : List (α × List α)) (cycles : List (List α)) (hw : n ∈ white)
    (h : TopoInv deps white ((g, n :: ns) :: rest) black cycles) :
    TopoInv deps (white.erase n)
      ((n, (deps n).reverse) :: (g, ns) :: rest) black cycles := by
  have hperm := unionPerm_push n g white black (n :: ns) (deps n).reverse ns
    rest hw
  have hndepsg : n ∈ deps g := h.pends (g, n :: ns) (by simp) n (by simp)
  refine ⟨?_, ?_, ?_, ?_, ?_, ?_⟩
  · exact hperm.nodup h.nodup
  · simp only [List.map_cons]
    refine List.chain'_cons.mpr ⟨hndepsg, ?_⟩
    have hc := h.chain
    simpa using hc
  · intro fr hfr v hv
    rcases List.mem_cons.mp hfr with h1 | h1
    · subst h1
      simpa using hv
    · rcases List.mem_cons.mp h1 with h2 | h2
      · subst h2
        exact h.pends (g, n :: ns) (by simp) v (List.mem_cons_of_mem n hv)
      · exact h.pends fr (List.mem_cons_of_mem _ h2) v hv
  · have hfr := h.frames
    unfold frameProp at hfr
    refine ⟨?_, ?_, ?_⟩
    · intro v hv
      exact Or.inl (List.mem_reverse.mpr hv)
    · intro v hv
      rcases hfr.1 v hv with h1 | h1 | h1 | h1 | h1
      · rcases List.mem_cons.mp h1 with h2 | h2
        · subst h2
          exact Or.inr (Or.inr (Or.inl (by simp)))
        · exact Or.inl h2
      · exact Or.inr (Or.inl h1)
      · exact absurd h1 (List.not_mem_nil v)
      · exact Or.inr (Or.inr (Or.inr (Or.inl h1)))
      · exact Or.inr (Or.inr (Or.inr (Or.inr
          (fun hm => h1 (hperm.mem_iff.mpr hm)))))
    · refine frameProp_weaken deps _ _ black black cycles cycles
        rest [g] (g :: [n]) hfr.2 ?_ (fun v hv => hv) (fun c hc => hc) ?_
      · intro v hv
        simp only [List.mem_singleton] at hv
        subst hv
        exact Or.inl (by simp)
      · intro v hv hm
        exact hv (hperm.mem_iff.mpr hm)
  · intro u hu v hv
    rcases h.blackOrd u hu v hv with h1 | h1 | h1
    · exact Or.inl h1
    · exact Or.inr (Or.inl h1)
    · exact Or.inr (Or.inr (fun hm => h1 (hperm.mem_iff.mpr hm)))
  · intro c hc
    obtain ⟨h1, h2, h3, h4⟩ := h.cyc c hc
    exact ⟨h1, fun x hx => hperm.mem_iff.mp (h2 x hx), h3, h4⟩

/-- Invariant transfer: a dependency that is neither unvisited nor on the
stack (it is already finished, or not an input node) is skipped. -/
theorem TopoInv_skip (deps : α → List α) (n g : α) (white black ns : List α)
    (rest : List (α × List α)) (cycles : List (List α))
    (hw : n ∉ white) (hg : n ∉ g :: rest.map Prod.fst)
    (h : TopoInv deps white ((g, n :: ns) :: rest) black cycles) :
    TopoInv deps white ((g, ns) :: rest) black cycles := by
  have hU : topoUnion white ((g, n :: ns) :: rest) black
      = topoUnion white ((g, ns) :: rest) black := rfl
  refine ⟨?_, ?_, ?_, ?_, ?_, ?_⟩
  · exact hU ▸ h.nodup
  · exact h.chain
  · intro fr hfr v hv
    rcases List.mem_cons.mp hfr with h1 | h1
    · subst h1
      exact h.pends (g, n :: ns) (by simp) v (List.mem_cons_of_mem n hv)
    · exact h.pends fr (List.mem_cons_of_mem _ h1) v hv
  · have hfr := h.frames
    unfold frameProp at hfr
    refine ⟨?_, hfr.2⟩
    intro v hv
    rcases hfr.1 v hv with h1 | h1 | h1 | h1 | h1
    · rcases List.mem_cons.mp h1 with h2 | h2
      · subst h2
        by_cases hb : v ∈ black
        · exact Or.inr (Or.inl hb)
        · refine Or.inr (Or.inr (Or.inr (Or.inr ?_)))
          rw [← hU]
          unfold topoUnion
          intro hm
          rcases List.mem_append.mp hm with hm1 | hm1
          · rcases List.mem_append.mp hm1 with hm2 | hm2
            · exact hw hm2
            · exact hg (by simpa using hm2)
          · exact hb hm1
      · exact Or.inl h2
    · exact Or.inr (Or.inl h1)
    · exact absurd h1 (List.not_mem_nil v)
    · exact Or.inr (Or.inr (Or.inr (Or.inl h1)))
    · exact Or.inr (Or.inr (Or.inr (Or.inr (hU ▸ h1))))
  · intro u hu v hv
    rcases h.blackOrd u hu v hv with h1 | h1 | h1
    · exact Or.inl h1
    · exact Or.inr (Or.inl h1)
    · exact Or.inr (Or.inr (hU ▸ h1))
  · intro c hc
    obtain ⟨h1, h2, h3, h4⟩ := h.cyc c hc
    exact ⟨h1, fun x hx => hU ▸ h2 x hx, h3, h4⟩

theorem takeWhile_ne_decomp (n : α) :
    ∀ l : List α, n ∈ l →
      (l.takeWhile (· ≠ n) ++ [n]) ++ (l.dropWhile (· ≠ n)).tail = l
  | [], h => absurd h (List.not_mem_nil n)
  | x :: xs, h => by
    by_cases hx : x = n
    · subst hx
      simp [List.takeWhile_cons, List.dropWhile_cons]
    · have hn : n ∈ xs := by
        rcases List.mem_cons.mp h with h1 | h1
        · exact absurd h1.symm hx
        · exact h1
      have ih := takeWhile_ne_decomp n xs hn
      have hb : (decide (x ≠ n)) = true := by simp [hx]
      have htw : (x :: xs).takeWhile (· ≠ n) = x :: xs.takeWhile (· ≠ n) := by
        simp [List.takeWhile_cons, hb, hx]
      have hdw : (x :: xs).dropWhile (· ≠ n) = xs.dropWhile (· ≠ n) := by
        simp [List.dropWhile_cons, hb, hx]
      rw [htw, hdw]
      simp only [List.cons_append, List.append_assoc] at ih ⊢
      rw [ih]

/-- Invariant transfer: a dependency re-encountered on the stack closes a
cycle; the slice of the stack from that node to the top is recorded and the
edge is dropped. -/
theorem TopoInv_cycle (deps : α → List α) (n g : α) (white black ns : List α)
    (rest : List (α × List α)) (cycles : List (List α))
    (hg : n ∈ g :: rest.map Prod.fst)
    (h : TopoInv deps white ((g, n :: ns) :: rest) black cycles) :
    TopoInv deps white ((g, ns) :: rest) black
      (cycles ++
        [(((g :: rest.map Prod.fst).takeWhile (· ≠ n)) ++ [n]).reverse]) := by
  have hU : topoUnion white ((g, n :: ns) :: rest) black
      = topoUnion white ((g, ns) :: rest) black := rfl
  have hndepsg : n ∈ deps g := h.pends (g, n :: ns) (by simp) n (by simp)
  have hdec := takeWhile_ne_decomp n (g :: rest.map Prod.fst) hg
  have hgrey : ∀ x, x ∈ g :: rest.map Prod.fst →
      x ∈ topoUnion white ((g, ns) :: rest) black := by
    intro x hx
    unfold topoUnion
    refine List.mem_append_left _ (List.mem_append_right _ ?_)
    simpa using hx
  have hmemnew : ∀ x,
      x ∈ (((g :: rest.map Prod.fst).takeWhile (· ≠ n)) ++ [n]).reverse →
        x ∈ g :: rest.map Prod.fst := by
    intro x hx
    rw [List.mem_reverse] at hx
    rcases List.mem_append.mp hx with h1 | h1
    · exact (List.takeWhile_sublist _).mem h1
    · simp only [List.mem_singleton] at h1
      subst h1
      exact hg
  have hginnew : g ∈
      (((g :: rest.map Prod.fst).takeWhile (· ≠ n)) ++ [n]).reverse := by
    rw [List.mem_reverse]
    by_cases hgn : g = n
    · exact List.mem_append_right _ (by simp [hgn])
    · refine List.mem_append_left _ ?_
      have : (g :: rest.map Prod.fst).takeWhile (· ≠ n)
          = g :: (rest.map Prod.fst).takeWhile (· ≠ n) := by
        simp [List.takeWhile_cons, hgn]
      rw [this]
      simp
  have hninnew : n ∈
      (((g :: rest.map Prod.fst).takeWhile (· ≠ n)) ++ [n]).reverse := by
    rw [List.mem_reverse]
    exact List.mem_append_right _ (by simp)
  refine ⟨?_, ?_, ?_, ?_, ?_, ?_⟩
  · exact hU ▸ h.nodup
  · exact h.chain
  · intro fr hfr v hv
    rcases List.mem_cons.mp hfr with h1 | h1
    · subst h1
      exact h.pends (g, n :: ns) (by simp) v (List.mem_cons_of_mem n hv)
    · exact h.pends fr (List.mem_cons_of_mem _ h1) v hv
  · have hfr := h.frames
    unfold frameProp at hfr
    refine ⟨?_, ?_⟩
    · intro v hv
      rcases hfr.1 v hv with h1 | h1 | h1 | h1 | h1
      · rcases List.mem_cons.mp h1 with h2 | h2
        · subst h2
          refine Or.inr (Or.inr (Or.inr (Or.inl ?_)))
          exact ⟨_, List.mem_append_right _ (by simp), hginnew, hninnew⟩
        · exact Or.inl h2
      · exact Or.inr (Or.inl h1)
      · exact absurd h1 (List.not_mem_nil v)
      · rcases h1 with ⟨c, hc1, hc2, hc3⟩
        exact Or.inr (Or.inr (Or.inr (Or.inl
          ⟨c, List.mem_append_left _ hc1, hc2, hc3⟩)))
      · exact Or.inr (Or.inr (Or.inr (Or.inr (hU ▸ h1))))
    · refine frameProp_weaken deps _ _ black black cycles _
        rest [g] [g] hfr.2 (fun v hv => Or.inl hv) (fun v hv => hv) ?_ ?_
      · intro c hc
        exact List.mem_append_left _ hc
      · intro v hv
        exact hU ▸ hv
  · intro u hu v hv
    rcases h.blackOrd u hu v hv with h1 | h1 | h1
    · exact Or.inl h1
    · rcases h1 with ⟨c, hc1, hc2, hc3⟩
      exact Or.inr (Or.inl ⟨c, List.mem_append_left _ hc1, hc2, hc3⟩)
    · exact Or.inr (Or.inr (hU ▸ h1))
  · intro c hc
    rcases List.mem_append.mp hc with hc1 | hc1
    · obtain ⟨h1, h2, h3, h4⟩ := h.cyc c hc1
      exact ⟨h1, fun x hx => hU ▸ h2 x hx, h3, h4⟩
    · simp only [List.mem_singleton] at hc1
      subst hc1
      refine ⟨by simp, ?_, ?_, ?_⟩
      · intro x hx
        exact hgrey x (hmemnew x hx)
      · rw [List.chain'_reverse]
        have hchain := h.chain
        simp only [List.map_cons] at hchain
        rw [← hdec] at hchain
        have := (List.chain'_append.mp hchain).1
        refine this.imp ?_
        intro a b hab
        exact hab
      · intro x y hx hy
        rw [List.head?_reverse] at hx
        rw [List.getLast?_reverse] at hy
        have hxn : x = n := by
          rw [List.getLast?_concat] at hx
          exact (Option.some_inj.mp hx).symm
        rw [hxn]
        by_cases hgn : g = n
        · have hpre : (g :: rest.map Prod.fst).takeWhile (· ≠ n) = [] := by
            simp [List.takeWhile_cons, hgn]
          rw [hpre] at hy
          simp only [List.nil_append, List.head?_cons] at hy
          have hyn : y = n := (Option.some_inj.mp hy).symm
          rw [hyn]
          exact hgn ▸ hndepsg
        · have hpre : (g :: rest.map Prod.fst).takeWhile (· ≠ n)
              = g :: (rest.map Prod.fst).takeWhile (· ≠ n) := by
            simp [List.takeWhile_cons, hgn]
          rw [hpre] at hy
          simp only [List.cons_append, List.head?_cons] at hy
          have hyg : y = g := (Option.some_inj.mp hy).symm
          rw [hyg]
          exact hndepsg

/-- What holds of the final `(black, cycles)` result. -/
def topoFinal (deps : α → List α) (black : List α)
    (cycles : List (List α)) : Prop :=
  black.Nodup ∧
  (∀ u ∈ black, ∀ v ∈ deps u, List.Sublist [v, u] black ∨
    (∃ c ∈ cycles, u ∈ c ∧ v ∈ c) ∨ v ∉ black) ∧
  (∀ c ∈ cycles, c ≠ [] ∧ (∀ x ∈ c, x ∈ black) ∧
    List.Chain' (fun a b => b ∈ deps a) c ∧
    (∀ x y, c.head? = some x → c.getLast? = some y → x ∈ deps y))

theorem topoLoop_final (deps : α → List α) :
    ∀ (white : List α) (stack : List (α × List α)) (black : List α)
      (cycles : List (List α)),
      TopoInv deps white stack black cycles →
      topoFinal deps (topoLoop deps white stack black cycles).1
        (topoLoop deps white stack black cycles).2 := by
  apply topoLoop.induct deps
    (fun white stack black cycles =>
      TopoInv deps white stack black cycles →
      topoFinal deps (topoLoop deps white stack black cycles).1
        (topoLoop deps white stack black cycles).2)
  · intro black cycles h
    rw [topoLoop]
    have hnd := h.nodup
    unfold topoUnion at hnd
    simp only [List.map_nil, List.nil_append] at hnd
    refine ⟨hnd, ?_, ?_⟩
    · intro u hu v hv
      rcases h.blackOrd u hu v hv with h1 | h1 | h1
      · exact Or.inl h1
      · exact Or.inr (Or.inl h1)
      · refine Or.inr (Or.inr ?_)
        unfold topoUnion at h1
        simpa using h1
    · intro c hc
      obtain ⟨h1, h2, h3, h4⟩ := h.cyc c hc
      refine ⟨h1, ?_, h3, h4⟩
      intro x hx
      have := h2 x hx
      unfold topoUnion at this
      simpa using this
  · intro black cycles w ws ih h
    rw [topoLoop]
    exact ih (TopoInv_outer deps w ws black cycles h)
  · intro white g rest black cycles ih h
    rw [topoLoop]
    exact ih (TopoInv_pop deps g white black rest cycles h)
  · intro white g rest black cycles n ns hw ih h
    rw [topoLoop]
    simp only [hw, dif_pos]
    exact ih (TopoInv_push deps n g white black ns rest cycles hw h)
  · intro white g rest black cycles n ns hw hg ih h
    rw [topoLoop]
    simp only [hw, dif_neg, not_false_iff, hg, if_pos]
    exact ih (TopoInv_cycle deps n g white black ns rest cycles hg h)
  · intro white g rest black cycles n ns hw hg ih h
    rw [topoLoop]
    simp only [hw, dif_neg, not_false_iff, hg, if_neg]
    exact ih (TopoInv_skip deps n g white black ns rest cycles hw hg h)

/-- A genuine dependency cycle among the given nodes: a nonempty list whose
consecutive elements are dependency edges and whose last element has the
first as a dependency. -/
def IsDepCycle (deps : α → List α) (inputs : List α) (c : List α) : Prop :=
  c ≠ [] ∧ (∀ x ∈ c, x ∈ inputs) ∧
  List.Chain' (fun a b => b ∈ deps a) c ∧
  (∀ x y, c.head? = some x → c.getLast? = some y → x ∈ deps y)

/-- The full correctness statement for `topological_sort`: the output is
duplicate-free, contains exactly the input nodes, every dependency edge
between input nodes either respects the order or joins a recorded cycle,
and every recorded cycle is a genuine dependency cycle. -/
theorem topological_sort_spec (input : List α) (deps : α → List α) :
    (topological_sort input deps).1.Nodup ∧
    (∀ x, x ∈ (topological_sort input deps).1 ↔ x ∈ input) ∧
    (∀ u ∈ (topological_sort input deps).1, ∀ v ∈ deps u,
      List.Sublist [v, u] (topological_sort input deps).1 ∨
      (∃ c ∈ (topological_sort input deps).2, u ∈ c ∧ v ∈ c) ∨ v ∉ input) ∧
    (∀ c ∈ (topological_sort input deps).2, IsDepCycle deps input c) := by
  have hinv : TopoInv deps input.dedup [] [] [] := by
    refine ⟨?_, ?_, ?_, trivial, ?_, ?_⟩
    · unfold topoUnion
      simpa using input.nodup_dedup
    · simp
    · intro fr hfr
      exact absurd hfr (List.not_mem_nil fr)
    · intro u hu
      exact absurd hu (List.not_mem_nil u)
    · intro c hc
      exact absurd hc (List.not_mem_nil c)
  have hfin := topoLoop_final deps input.dedup [] [] [] hinv
  have hperm := topoLoop_perm deps input.dedup [] [] []
  simp only [List.map_nil, List.nil_append, List.append_nil] at hperm
  obtain ⟨hnd, hord, hcyc⟩ := hfin
  have hmem : ∀ x, x ∈ (topological_sort input deps).1 ↔ x ∈ input := by
    intro x
    unfold topological_sort
    rw [hperm.mem_iff]
    exact List.mem_dedup
  refine ⟨hnd, hmem, ?_, ?_⟩
  · intro u hu v hv
    rcases hord u hu v hv with h1 | h1 | h1
    · exact Or.inl h1
    · exact Or.inr (Or.inl h1)
    · exact Or.inr (Or.inr (fun hm => h1 ((hmem v).mpr hm)))
  · intro c hc
    obtain ⟨h1, h2, h3, h4⟩ := hcyc c hc
    exact ⟨h1, fun x hx => (hmem x).mp (h2 x hx), h3, h4⟩

/-- Along a dependency chain a strictly edge-decreasing rank decreases
weakly from the head to the last element. -/
theorem chain_rank_desc (rank : α → Nat) (deps : α → List α)
    (inputs : List α)
    (h : ∀ u, u ∈ inputs → ∀ v ∈ deps u, v ∈ inputs → rank v < rank u) :
    ∀ c : List α, List.Chain' (fun a b => b ∈ deps a) c →
      (∀ z ∈ c, z ∈ inputs) →
      ∀ x y, c.head? = some x → c.getLast? = some y → rank y ≤ rank x
  | [], _, _, x, y, hx, _ => by simp at hx
  | [a], _, _, x, y, hx, hy => by
    simp only [List.head?_cons, Option.some_inj] at hx
    simp only [List.getLast?_singleton, Option.some_inj] at hy
    rw [← hx, ← hy]
  | a :: b :: t, hc, hz, x, y, hx, hy => by
    have hR : b ∈ deps a := (List.chain'_cons.mp hc).1
    have hc2 := (List.chain'_cons.mp hc).2
    have hx2 : a = x := by simpa using hx
    have hy2 : (b :: t).getLast? = some y := by
      simpa [List.getLast?_cons_cons] using hy
    have hle := chain_rank_desc rank deps inputs h (b :: t) hc2
      (fun z hzm => hz z (List.mem_cons_of_mem a hzm)) b y rfl hy2
    have hlt : rank b < rank a :=
      h a (hz a (by simp)) b hR (hz b (by simp))
    rw [← hx2]
    omega

/-- If a rank strictly decreases along every dependency edge between input
nodes then there is no dependency cycle among the input nodes. -/
theorem not_isDepCycle_of_rank (rank : α → Nat) (deps : α → List α)
    (inputs : List α)
    (h : ∀ u, u ∈ inputs → ∀ v ∈ deps u, v ∈ inputs → rank v < rank u) :
    ∀ c, ¬ IsDepCycle deps inputs c := by
  rintro c ⟨hne, hmem, hchain, hwrap⟩
  match c, hne with
  | a :: t, _ =>
    cases hgl : (a :: t).getLast? with
    | none =>
      rw [List.getLast?_eq_none_iff] at hgl
      exact absurd hgl (by simp)
    | some y =>
      have hay : a ∈ deps y := hwrap a y rfl hgl
      have hya : rank y ≤ rank a :=
        chain_rank_desc rank deps inputs h (a :: t) hchain hmem a y rfl hgl
      have hymem : y ∈ a :: t := by
        obtain ⟨hne2, heq⟩ := List.mem_getLast?_eq_getLast
          (show y ∈ (a :: t).getLast? from hgl)
        rw [heq]
        exact List.getLast_mem hne2
      have hlt : rank a < rank y :=
        h y (hmem y hymem) a hay (hmem a (by simp))
      omega

theorem indexOf_lt_of_pair_sublist (v u : α) :
    ∀ l : List α, l.Nodup → List.Sublist [v, u] l →
      l.indexOf v < l.indexOf u
  | [], _, hs => by simp at hs
  | x :: xs, hnd, hs => by
    cases hs with
    | cons _ hs2 =>
      have hvxs : v ∈ xs := hs2.mem (by simp)
      have huxs : u ∈ xs := hs2.mem (by simp)
      have hxv : x ≠ v := fun he => (List.nodup_cons.mp hnd).1 (he ▸ hvxs)
      have hxu : x ≠ u := fun he => (List.nodup_cons.mp hnd).1 (he ▸ huxs)
      have ih := indexOf_lt_of_pair_sublist v u xs (List.nodup_cons.mp hnd).2 hs2
      rw [List.indexOf_cons_ne _ hxv, List.indexOf_cons_ne _ hxu]
      omega
    | cons₂ _ hs2 =>
      have huxs : u ∈ xs := hs2.mem (by simp)
      have hvu : v ≠ u := fun he => (List.nodup_cons.mp hnd).1 (he ▸ huxs)
      rw [List.indexOf_cons_self]
      rw [List.indexOf_cons_ne _ hvu]
      omega

/-! ## Story driver and population orchestrator (sqlsynthgen/create.py)

Rows take values in an arbitrary type `V`; a Python dict of column values is
a `Dict V`; the destination connection is modelled by the list of rows
visible on it (committed rows plus the open transaction's pending rows).
Database inserts go through an oracle that returns either the
`returned_defaults` of the insert or a database error code. -/

/-- A Python dict of column values. -/
abbrev Dict (V : Type) : Type := List (String × V)

/-- One inserted row: target table name and the inserted values. -/
abbrev Row (V : Type) : Type := String × Dict V

/-- The rows visible on a connection. -/
abbrev Conn (V : Type) : Type := List (Row V)

/-- The insert oracle: visible rows, table name and insert values to either
the database-returned defaults or a database error code. -/
abbrev Oracle (V : Type) : Type :=
  Conn V → String → Dict V → Except Nat (Dict V)

/-- A story: the Python generator returned by a story function.  Each step
yields a `(table_name, provided_values)` pair and waits to be resumed
(`send`) with the fully resolved row; `done` is `StopIteration`.  Stories
are finite by construction, as §3 of the specification requires. -/
inductive Story (V : Type) : Type where
  | done : Story V
  | step (table_name : String) (provided_values : Dict V)
      (resume : Dict V → Story V) : Story V

/-- A table generator: `num_rows_per_pass` plus `__call__(dst_db_conn)`
producing one row's column values from the visible rows. -/
structure TableGenerator (V : Type) : Type where
  num_rows_per_pass : Nat
  gen : Conn V → Dict V

/-- An error escaping a database operation: a Python `KeyError` from
`table_dict[table_name]`, or a database error with its error code. -/
inductive DbError : Type where
  | keyError : DbError
  | dbError (code : Nat) : DbError
  deriving DecidableEq

/-- One story-generator entry of `story_generator_list`: its name, the story
produced by `sg["function"](dst_conn)`, and `num_stories_per_pass`. -/
structure StoryDescriptor (V : Type) : Type where
  name : String
  function : Story V
  num_stories_per_pass : Nat

/-- `_populate_story` from sqlsynthgen/create.py: drive one story.  Per
step: look the table up (Python raises `KeyError` when absent), take the
table generator's output as default values when one is registered and `{}`
otherwise, merge in the provided values, insert (appending to the open
transaction's `pending` rows), merge the database-returned values over the
insert values, count the row and resume the story with the result. -/
def populate_story {V : Type} (table_names : List String)
    (table_generator_dict : List (String × TableGenerator V))
    (oracle : Oracle V) (committed : Conn V) :
    Story V → Conn V → Except DbError (Conn V × (String → Nat))
  | .done, pending => .ok (pending, fun _ => 0)
  | .step table_name provided_values resume, pending =>
    if table_name ∈ table_names then
      let default_values :=
        match dlookup table_name table_generator_dict with
        | some tg => tg.gen (committed ++ pending)
        | none => []
      let insert_values := dictMerge default_values provided_values
      match oracle (committed ++ pending) table_name insert_values with
      | .error code => .error (.dbError code)
      | .ok return_values =>
        let final_values := dictMerge insert_values return_values
        match populate_story table_names table_generator_dict oracle committed
            (resume final_values)
            (pending ++ [(table_name, insert_values)]) with
        | .error e => .error e
        | .ok (p, counts) =>
          .ok (p, fun t => (if t = table_name then 1 else 0) + counts t)
    else
      .error .keyError

/-- The story phase of `populate`: each story's inserts run inside one
transaction (`with dst_conn.begin()`); on success its pending rows are
committed together, on an exception the transaction is rolled back and the
exception propagates out of `populate` (carrying the connection state). -/
def run_stories {V : Type} (table_names : List String)
    (tgd : List (String × TableGenerator V)) (oracle : Oracle V) :
    List (Story V) → Conn V →
      Except (Conn V × DbError) (Conn V × (String → Nat))
  | [], committed => .ok (committed, fun _ => 0)
  | story :: rest, committed =>
    match populate_story table_names tgd oracle committed story [] with
    | .error e => .error (committed, e)
    | .ok (pending, counts) =>
      match run_stories table_names tgd oracle rest (committed ++ pending) with
      | .error ce => .error ce
      | .ok (conn2, counts2) => .ok (conn2, fun t => counts t + counts2 t)

/-- The inner loop of the standalone phase of `populate`: insert
`num_rows_per_pass` generated rows for one table inside one transaction. -/
def insert_rows {V : Type} (table : String) (tg : TableGenerator V)
    (oracle : Oracle V) (committed : Conn V) :
    Nat → Conn V → Except DbError (Conn V)
  | 0, pending => .ok pending
  | Nat.succ k, pending =>
    match oracle (committed ++ pending) table
        (tg.gen (committed ++ pending)) with
    | .error code => .error (.dbError code)
    | .ok _ =>
      insert_rows table tg oracle committed k
        (pending ++ [(table, tg.gen (committed ++ pending))])

/-- The standalone table phase of `populate`: for each table in order, skip
it when it has no generator or `num_rows_per_pass == 0`, otherwise run all
its inserts in one transaction and add its row count. -/
def run_tables {V : Type} (tgd : List (String × TableGenerator V))
    (oracle : Oracle V) :
    List String → Conn V →
      Except (Conn V × DbError) (Conn V × (String → Nat))
  | [], committed => .ok (committed, fun _ => 0)
  | t :: rest, committed =>
    match dlookup t tgd with
    | none => run_tables tgd oracle rest committed
    | some tg =>
      if tg.num_rows_per_pass = 0 then
        run_tables tgd oracle rest committed
      else
        match insert_rows t tg oracle committed tg.num_rows_per_pass [] with
        | .error e => .error (committed, e)
        | .ok pending =>
          match run_tables tgd oracle rest (committed ++ pending) with
          | .error ce => .error ce
          | .ok (c2, counts) =>
            .ok (c2,
              fun s => (if s = t then tg.num_rows_per_pass else 0) + counts s)

/-- `populate` from sqlsynthgen/create.py: instantiate every story
(`num_stories_per_pass` copies per descriptor, in list order), run the
story phase, then the standalone table phase, summing the row counts. -/
def populate {V : Type} (tables : List String)
    (tgd : List (String × TableGenerator V))
    (sgl : List (StoryDescriptor V)) (oracle : Oracle V)
    (committed : Conn V) :
    Except (Conn V × DbError) (Conn V × (String → Nat)) :=
  let stories :=
    (sgl.map (fun sg => List.replicate sg.num_stories_per_pass sg.function)).flatten
  match run_stories tables tgd oracle stories committed with
  | .error ce => .error ce
  | .ok (c1, counts1) =>
    match run_tables tgd oracle tables c1 with
    | .error ce => .error ce
    | .ok (c2, counts2) => .ok (c2, fun t => counts1 t + counts2 t)

/-- `create_db_data` from sqlsynthgen/create.py: run `populate` for
`num_passes` passes on one connection, accumulating the row counts. -/
def create_db_data {V : Type} (tables : List String)
    (tgd : List (String × TableGenerator V))
    (sgl : List (StoryDescriptor V)) (oracle : Oracle V) :
    Nat → Conn V → Except (Conn V × DbError) (Conn V × (String → Nat))
  | 0, committed => .ok (committed, fun _ => 0)
  | Nat.succ k, committed =>
    match populate tables tgd sgl oracle committed with
    | .error ce => .error ce
    | .ok (c1, counts1) =>
      match create_db_data tables tgd sgl oracle k c1 with
      | .error ce => .error ce
      | .ok (c2, counts2) => .ok (c2, fun t => counts1 t + counts2 t)

/-- The story never yields the given table (at any step, under any resume
values). -/
def StoryAvoids {V : Type} (t : String) : Story V → Prop
  | .done => True
  | .step tn _ resume => tn ≠ t ∧ ∀ d, StoryAvoids t (resume d)

/-- Starting from `committed`, the given stories run one after the other,
each succeeding with the given pending-row list and committing it before
the next starts. -/
inductive StoryRuns {V : Type} (table_names : List String)
    (tgd : List (String × TableGenerator V)) (oracle : Oracle V) :
    Conn V → List (Story V) → List (Conn V) → Prop where
  | nil (committed : Conn V) :
      StoryRuns table_names tgd oracle committed [] []
  | cons (committed : Conn V) (p : Conn V) (counts : String → Nat)
      (story : Story V) (rest : List (Story V)) (ps : List (Conn V)) :
      populate_story table_names tgd oracle committed story [] =
        .ok (p, counts) →
      StoryRuns table_names tgd oracle (committed ++ p) rest ps →
      StoryRuns table_names tgd oracle committed (story :: rest) (p :: ps)

/-- Unfolding equation for one executed story step whose table exists:
resolve the defaults from the table generator (empty without one), merge the
provided values over them, insert that row, and resume the story with the
database-returned values merged over the inserted ones. -/
theorem populate_story_step {V : Type} (table_names : List String)
    (tgd : List (String × TableGenerator V)) (oracle : Oracle V)
    (committed : Conn V) (tn : String) (pv : Dict V)
    (resume : Dict V → Story V) (pending : Conn V)
    (htn : tn ∈ table_names) :
    populate_story table_names tgd oracle committed
        (.step tn pv resume) pending =
      (match oracle (committed ++ pending) tn
          (dictMerge (match dlookup tn tgd with
            | some tg => tg.gen (committed ++ pending)
            | none => []) pv) with
      | .error code => .error (.dbError code)
      | .ok ret =>
        match populate_story table_names tgd oracle committed
            (resume (dictMerge (dictMerge (match dlookup tn tgd with
              | some tg => tg.gen (committed ++ pending)
              | none => []) pv) ret))
            (pending ++ [(tn, dictMerge (match dlookup tn tgd with
              | some tg => tg.gen (committed ++ pending)
              | none => []) pv)]) with
        | .error e => .error e
        | .ok (p, cnt) =>
          .ok (p, fun t => (if t = tn then 1 else 0) + cnt t)) := by
  conv_lhs => unfold populate_story
  rw [if_pos htn]

theorem run_stories_ok {V : Type} (table_names : List String)
    (tgd : List (String × TableGenerator V)) (oracle : Oracle V) :
    ∀ (stories : List (Story V)) (committed c2 : Conn V)
      (counts : String → Nat),
      run_stories table_names tgd oracle stories committed = .ok (c2, counts) →
      ∃ ps, StoryRuns table_names tgd oracle committed stories ps ∧
        c2 = committed ++ ps.flatten := by
  intro stories
  induction stories with
  | nil =>
    intro committed c2 counts h
    unfold run_stories at h
    injection h with h2
    injection h2 with h3 h4
    exact ⟨[], StoryRuns.nil committed, by simp [← h3]⟩
  | cons story rest ih =>
    intro committed c2 counts h
    unfold run_stories at h
    cases hps : populate_story table_names tgd oracle committed story [] with
    | error e => rw [hps] at h; exact absurd h (by simp)
    | ok pc =>
      obtain ⟨p, cnt⟩ := pc
      rw [hps] at h
      simp only [] at h
      cases hrs : run_stories table_names tgd oracle rest
          (committed ++ p) with
      | error ce => rw [hrs] at h; exact absurd h (by simp)
      | ok cc =>
        obtain ⟨cfin, cnt2⟩ := cc
        rw [hrs] at h
        simp only [] at h
        injection h with h2
        injection h2 with h3 h4
        obtain ⟨ps, hsr, heq⟩ := ih (committed ++ p) cfin cnt2 hrs
        refine ⟨p :: ps, ?_, ?_⟩
        · exact StoryRuns.cons committed p cnt story rest ps hps hsr
        · rw [← h3, heq]
          simp [List.append_assoc]

theorem run_stories_error {V : Type} (table_names : List String)
    (tgd : List (String × TableGenerator V)) (oracle : Oracle V) :
    ∀ (stories : List (Story V)) (committed c2 : Conn V) (e : DbError),
      run_stories table_names tgd oracle stories committed =
          .error (c2, e) →
      ∃ k ps story, k < stories.length ∧ stories[k]? = some story ∧
        StoryRuns table_names tgd oracle committed (stories.take k) ps ∧
        c2 = committed ++ ps.flatten ∧
        populate_story table_names tgd oracle c2 story [] = .error e := by
  intro stories
  induction stories with
  | nil =>
    intro committed c2 e h
    unfold run_stories at h
    exact absurd h (by simp)
  | cons story rest ih =>
    intro committed c2 e h
    unfold run_stories at h
    cases hps : populate_story table_names tgd oracle committed story [] with
    | error e0 =>
      rw [hps] at h
      simp only [] at h
      injection h with h2
      injection h2 with h3 h4
      refine ⟨0, [], story, by simp, by simp, StoryRuns.nil committed,
        by rw [← h3]; simp, ?_⟩
      rw [← h3, ← h4]
      exact hps
    | ok pc =>
      obtain ⟨p, cnt⟩ := pc
      rw [hps] at h
      simp only [] at h
      cases hrs : run_stories table_names tgd oracle rest
          (committed ++ p) with
      | error ce =>
        obtain ⟨cerr, eerr⟩ := ce
        rw [hrs] at h
        simp only [] at h
        injection h with h2
        injection h2 with h3 h4
        obtain ⟨k, ps, story2, hk, hidx, hsr, heq, hfail⟩ :=
          ih (committed ++ p) cerr eerr hrs
        refine ⟨k + 1, p :: ps, story2, by simpa using hk,
          by simpa using hidx, ?_, ?_, ?_⟩
        · rw [List.take_succ_cons]
          exact StoryRuns.cons committed p cnt story (rest.take k) ps hps hsr
        · rw [← h3, heq]
          simp [List.append_assoc]
        · rw [← h3, ← h4]
          exact hfail
      | ok cc =>
        rw [hrs] at h
        simp only [] at h
        exact absurd h (by simp)

theorem populate_story_avoids {V : Type} (t : String)
    (table_names : List String) (tgd : List (String × TableGenerator V))
    (oracle : Oracle V) (committed : Conn V) :
    ∀ (story : Story V) (pending p : Conn V) (counts : String → Nat),
      StoryAvoids t story →
      populate_story table_names tgd oracle committed story pending =
        .ok (p, counts) →
      counts t = 0
  | .done, pending, p, counts, _, h => by
    unfold populate_story at h
    injection h with h2
    injection h2 with h3 h4
    rw [← h4]
  | .step tn pv resume, pending, p, counts, hA, h => by
    by_cases htn : tn ∈ table_names
    · rw [populate_story_step table_names tgd oracle committed tn pv resume
        pending htn] at h
      cases hor : oracle (committed ++ pending) tn
          (dictMerge (match dlookup tn tgd with
            | some tg => tg.gen (committed ++ pending)
            | none => []) pv) with
      | error code => rw [hor] at h; exact absurd h (by simp)
      | ok ret =>
        rw [hor] at h
        simp only [] at h
        cases hrec : populate_story table_names tgd oracle committed
            (resume (dictMerge (dictMerge (match dlookup tn tgd with
              | some tg => tg.gen (committed ++ pending)
              | none => []) pv) ret))
            (pending ++ [(tn, dictMerge (match dlookup tn tgd with
              | some tg => tg.gen (committed ++ pending)
              | none => []) pv)]) with
        | error e => rw [hrec] at h; exact absurd h (by simp)
        | ok pc =>
          obtain ⟨p0, cnt0⟩ := pc
          rw [hrec] at h
          simp only [] at h
          injection h with h2
          injection h2 with h3 h4
          have hrec0 : cnt0 t = 0 :=
            populate_story_avoids t table_names tgd oracle committed
              (resume _) _ p0 cnt0 (hA.2 _) hrec
          rw [← h4]
          simp only []
          rw [if_neg (fun he => hA.1 he.symm)]
          simp [hrec0]
    · unfold populate_story at h
      rw [if_neg htn] at h
      exact absurd h (by simp)

theorem run_stories_avoids {V : Type} (t : String) (table_names : List String)
    (tgd : List (String × TableGenerator V)) (oracle : Oracle V) :
    ∀ (stories : List (Story V)) (committed c2 : Conn V)
      (counts : String → Nat),
      (∀ s ∈ stories, StoryAvoids t s) →
      run_stories table_names tgd oracle stories committed = .ok (c2, counts) →
      counts t = 0 := by
  intro stories
  induction stories with
  | nil =>
    intro committed c2 counts _ h
    unfold run_stories at h
    injection h with h2
    injection h2 with h3 h4
    rw [← h4]
  | cons story rest ih =>
    intro committed c2 counts hav h
    unfold run_stories at h
    cases hps : populate_story table_names tgd oracle committed story [] with
    | error e => rw [hps] at h; exact absurd h (by simp)
    | ok pc =>
      obtain ⟨p, cnt⟩ := pc
      rw [hps] at h
      simp only [] at h
      cases hrs : run_stories table_names tgd oracle rest
          (committed ++ p) with
      | error ce => rw [hrs] at h; exact absurd h (by simp)
      | ok cc =>
        obtain ⟨cfin, cnt2⟩ := cc
        rw [hrs] at h
        simp only [] at h
        injection h with h2
        injection h2 with h3 h4
        have ha1 : cnt t = 0 :=
          populate_story_avoids t table_names tgd oracle committed story []
            p cnt (hav story (by simp)) hps
        have ha2 : cnt2 t = 0 :=
          ih (committed ++ p) cfin cnt2
            (fun s hs => hav s (List.mem_cons_of_mem _ hs)) hrs
        rw [← h4]
        simp [ha1, ha2]

theorem run_tables_count {V : Type}
    (tgd : List (String × TableGenerator V)) (oracle : Oracle V)
    (t : String) (tg : TableGenerator V)
    (htg : dlookup t tgd = some tg) :
    ∀ (ts : List String) (committed c2 : Conn V) (counts : String → Nat),
      run_tables tgd oracle ts committed = .ok (c2, counts) →
      counts t = ts.count t * tg.num_rows_per_pass := by
  intro ts
  induction ts with
  | nil =>
    intro committed c2 counts h
    unfold run_tables at h
    injection h with h2
    injection h2 with h3 h4
    rw [← h4]
    simp
  | cons s rest ih =>
    intro committed c2 counts h
    unfold run_tables at h
    cases hls : dlookup s tgd with
    | none =>
      rw [hls] at h
      simp only [] at h
      have hst : t ≠ s := by
        intro he
        rw [← he, htg] at hls
        exact absurd hls (by simp)
      have hres := ih committed c2 counts h
      have hcnt : List.count t (s :: rest) = List.count t rest := by
        simp [List.count_cons, hst]
      rw [hres, hcnt]
    | some tg2 =>
      rw [hls] at h
      simp only [] at h
      by_cases hz : tg2.num_rows_per_pass = 0
      · rw [if_pos hz] at h
        have hres := ih committed c2 counts h
        by_cases hst : t = s
        · have htg2 : tg2 = tg := by
            rw [← hst, htg] at hls
            injection hls with hv
            exact hv.symm
          have hR : tg.num_rows_per_pass = 0 := by
            rw [← htg2]
            exact hz
          rw [hres, hR]
          simp
        · have hcnt : List.count t (s :: rest) = List.count t rest := by
            simp [List.count_cons, hst]
          rw [hres, hcnt]
      · rw [if_neg hz] at h
        cases hins : insert_rows s tg2 oracle committed
            tg2.num_rows_per_pass [] with
        | error e => rw [hins] at h; exact absurd h (by simp)
        | ok pending =>
          rw [hins] at h
          simp only [] at h
          cases hrt : run_tables tgd oracle rest (committed ++ pending) with
          | error ce => rw [hrt] at h; exact absurd h (by simp)
          | ok cc =>
            obtain ⟨cfin, cnt2⟩ := cc
            rw [hrt] at h
            simp only [] at h
            injection h with h2
            injection h2 with h3 h4
            have hihc := ih (committed ++ pending) cfin cnt2 hrt
            rw [← h4]
            simp only []
            by_cases hst : t = s
            · have htg2 : tg2 = tg := by
                rw [← hst, htg] at hls
                injection hls with hv
                exact hv.symm
              have hcnt : List.count t (s :: rest) = List.count t rest + 1 := by
                simp [List.count_cons, hst]
              rw [if_pos hst, hihc, hcnt, htg2]
              ring
            · have hcnt : List.count t (s :: rest) = List.count t rest := by
                simp [List.count_cons, hst]
              rw [if_neg hst, hihc, hcnt]
              simp

theorem populate_count {V : Type} (tables : List String)
    (tgd : List (String × TableGenerator V)) (sgl : List (StoryDescriptor V))
    (oracle : Oracle V) (t : String) (tg : TableGenerator V)
    (committed c2 : Conn V) (counts : String → Nat)
    (htg : dlookup t tgd = some tg)
    (hav : ∀ sg ∈ sgl, StoryAvoids t sg.function)
    (h : populate tables tgd sgl oracle committed = .ok (c2, counts)) :
    counts t = tables.count t * tg.num_rows_per_pass := by
  unfold populate at h
  simp only [] at h
  cases hrs : run_stories tables tgd oracle
      ((sgl.map (fun sg =>
        List.replicate sg.num_stories_per_pass sg.function)).flatten)
      committed with
  | error ce => rw [hrs] at h; exact absurd h (by simp)
  | ok cc =>
    obtain ⟨c1, cnt1⟩ := cc
    rw [hrs] at h
    simp only [] at h
    cases hrt : run_tables tgd oracle tables c1 with
    | error ce => rw [hrt] at h; exact absurd h (by simp)
    | ok cc2 =>
      obtain ⟨cfin, cnt2⟩ := cc2
      rw [hrt] at h
      simp only [] at h
      injection h with h2
      injection h2 with h3 h4
      have ha1 : cnt1 t = 0 := by
        refine run_stories_avoids t tables tgd oracle _ committed c1 cnt1
          ?_ hrs
        intro s hs
        rw [List.mem_flatten] at hs
        obtain ⟨l, hl, hsl⟩ := hs
        rw [List.mem_map] at hl
        obtain ⟨sg, hsg, hrep⟩ := hl
        rw [← hrep] at hsl
        rw [List.eq_of_mem_replicate hsl]
        exact hav sg hsg
      have ha2 := run_tables_count tgd oracle t tg htg tables c1 cfin
        cnt2 hrt
      rw [← h4]
      simp [ha1, ha2]

theorem create_db_data_count {V : Type} (tables : List String)
    (tgd : List (String × TableGenerator V)) (sgl : List (StoryDescriptor V))
    (oracle : Oracle V) (t : String) (tg : TableGenerator V)
    (htg : dlookup t tgd = some tg)
    (hav : ∀ sg ∈ sgl, StoryAvoids t sg.function) :
    ∀ (num_passes : Nat) (committed c2 : Conn V) (counts : String → Nat),
      create_db_data tables tgd sgl oracle num_passes committed =
        .ok (c2, counts) →
      counts t = num_passes * (tables.count t * tg.num_rows_per_pass) := by
  intro num_passes
  induction num_passes with
  | zero =>
    intro committed c2 counts h
    unfold create_db_data at h
    injection h with h2
    injection h2 with h3 h4
    rw [← h4]
    simp
  | succ k ih =>
    intro committed c2 counts h
    unfold create_db_data at h
    cases hp : populate tables tgd sgl oracle committed with
    | error ce => rw [hp] at h; exact absurd h (by simp)
    | ok cc =>
      obtain ⟨c1, cnt1⟩ := cc
      rw [hp] at h
      simp only [] at h
      cases hrec : create_db_data tables tgd sgl oracle k c1 with
      | error ce => rw [hrec] at h; exact absurd h (by simp)
      | ok cc2 =>
        obtain ⟨cfin, cnt2⟩ := cc2
        rw [hrec] at h
        simp only [] at h
        injection h with h2
        injection h2 with h3 h4
        have ha1 := populate_count tables tgd sgl oracle t tg committed c1
          cnt1 htg hav hp
        have ha2 := ih c1 cfin cnt2 hrec
        rw [← h4]
        simp only []
        rw [ha1, ha2]
        ring

/-! ## Vocabulary constraint manager
(`create_db_vocab` in sqlsynthgen/create.py;
`remove_vocab_foreign_key_constraints` in sqlsynthgen/utils.py)

The database state relevant here is its set of foreign-key constraints,
a `List FK`.  Each `with Session(...)` block commits only where the source
commits: the drop blocks of `create_db_vocab` never call `session.commit()`,
so a successfully executed drop is rolled back when the session closes and
has no lasting effect; `remove_vocab_foreign_key_constraints` in utils.py
does commit its drops.  Outcomes of the DDL statements and of the bulk
loads come from oracles. -/

/-- A foreign-key constraint: its name, the table it is attached to, its
referencing columns, and its `refcolumns` targets (`"table.column"`
strings). -/
structure FK : Type where
  name : String
  table : String
  columns : List String
  refcolumns : List String
  deriving DecidableEq

/-- Outcome of executing one `DropConstraint`. -/
inductive DropOutcome : Type where
  | ok : DropOutcome
  | integrityError : DropOutcome
  | undefinedObject : DropOutcome
  | otherError (code : Nat) : DropOutcome
  deriving DecidableEq

/-- Outcome of one vocabulary table's bulk load. -/
inductive LoadOutcome : Type where
  | ok : LoadOutcome
  | integrityError : LoadOutcome
  | otherError (code : Nat) : LoadOutcome
  deriving DecidableEq

/-- Outcome of executing one `AddConstraint`. -/
inductive AddOutcome : Type where
  | ok : AddOutcome
  | integrityError : AddOutcome
  | otherError (code : Nat) : AddOutcome
  deriving DecidableEq

/-- `make_foreign_key_name` from sqlsynthgen/utils.py. -/
def make_foreign_key_name (table_name col_name : String) : String :=
  table_name ++ "_" ++ col_name ++ "_fkey"

/-- Effect of a committed `DROP CONSTRAINT`: the constraint with that name
on that table is gone. -/
def dropConstraint (fk : FK) (db : List FK) : List FK :=
  db.filter (fun k => !(k.table == fk.table && k.name == fk.name))

/-- The constraint-drop loop of `create_db_vocab` (create.py): each drop
runs in a session that is closed without `commit`, so the database is
unchanged whatever happens; `IntegrityError` is logged and skipped,
`ProgrammingError` whose cause is `UndefinedObject` is a no-op, any other
database error is re-raised. -/
def create_drop_fks (dropO : FK → DropOutcome) : List FK → Except Nat Unit
  | [] => .ok ()
  | fk :: rest =>
    match dropO fk with
    | .ok => create_drop_fks dropO rest
    | .integrityError => create_drop_fks dropO rest
    | .undefinedObject => create_drop_fks dropO rest
    | .otherError code => .error code

/-- The first loop of `create_db_vocab`: per vocabulary table, look it up in
the metadata (`KeyError` if absent), run the constraint drops, then load the
table; a load `IntegrityError` is logged and the table skipped, any other
load error propagates; the returned list collects the successfully loaded
table names in order. -/
def vocab_load_loop (metadata : List (String × List FK))
    (dropO : FK → DropOutcome) (loadO : String → LoadOutcome) :
    List String → Except DbError (List String)
  | [] => .ok []
  | t :: rest =>
    match dlookup t metadata with
    | none => .error .keyError
    | some fks =>
      match create_drop_fks dropO fks with
      | .error code => .error (.dbError code)
      | .ok _ =>
        match loadO t with
        | .ok =>
          match vocab_load_loop metadata dropO loadO rest with
          | .error e => .error e
          | .ok loaded => .ok (t :: loaded)
        | .integrityError => vocab_load_loop metadata dropO loadO rest
        | .otherError code => .error (.dbError code)

/-- The per-table restore body of `create_db_vocab`: for each column of the
table's meta_dict entry with a nonempty `foreign_keys` list, build the
constraint — NOTE: it is appended to the Python variable `vocab_table`,
which the second loop never reassigns, so the constraint attaches to
`staleTable`, the last table of the first loop — and commit it.  The
enclosing `try` catches only `IntegrityError`, abandoning the rest of this
table's columns; other errors propagate. -/
def restore_columns (addO : FK → AddOutcome) (t staleTable : String) :
    List (String × List String) → List FK → Except Nat (List FK)
  | [], db => .ok db
  | (c, fk_targets) :: rest, db =>
    if fk_targets = [] then restore_columns addO t staleTable rest db
    else
      match addO ⟨make_foreign_key_name t c, staleTable, [c], fk_targets⟩ with
      | .ok =>
        restore_columns addO t staleTable rest
          (db ++ [⟨make_foreign_key_name t c, staleTable, [c], fk_targets⟩])
      | .integrityError => .ok db
      | .otherError code => .error code

/-- The second loop of `create_db_vocab`: restore constraints from the
meta_dict description for every vocabulary table (the `KeyError` of a
missing meta_dict entry propagates). -/
def restore_loop (meta_dict : List (String × List (String × List String)))
    (addO : FK → AddOutcome) (staleTable : String) :
    List String → List FK → Except DbError (List FK)
  | [], db => .ok db
  | t :: rest, db =>
    match dlookup t meta_dict with
    | none => .error .keyError
    | some cols =>
      match restore_columns addO t staleTable cols db with
      | .error code => .error (.dbError code)
      | .ok db2 => restore_loop meta_dict addO staleTable rest db2

/-- `create_db_vocab` from sqlsynthgen/create.py: run the drop-and-load loop
over the vocabulary tables, then the restore loop.  The restore loop reuses
the stale `vocab_table` variable left over from the first loop — the last
vocabulary table — as the table the constraints are attached to.  Returns
the final constraint state and `tables_loaded`. -/
def create_db_vocab (metadata : List (String × List FK))
    (meta_dict : List (String × List (String × List String)))
    (vocab_tables : List String) (dropO : FK → DropOutcome)
    (loadO : String → LoadOutcome) (addO : FK → AddOutcome)
    (db : List FK) : Except DbError (List FK × List String) :=
  match vocab_load_loop metadata dropO loadO vocab_tables with
  | .error e => .error e
  | .ok tables_loaded =>
    match vocab_tables.getLast? with
    | none => .ok (db, tables_loaded)
    | some staleName =>
      match restore_loop meta_dict addO staleName vocab_tables db with
      | .error e => .error e
      | .ok db2 => .ok (db2, tables_loaded)

/-- The constraint-drop loop of `remove_vocab_foreign_key_constraints`
(utils.py): unlike create.py it commits each successful drop;
`IntegrityError` rolls back and continues, `UndefinedObject` is a no-op,
any other database error is re-raised. -/
def remove_drop_fks (dropO : FK → DropOutcome) :
    List FK → List FK → Except Nat (List FK)
  | [], db => .ok db
  | fk :: rest, db =>
    match dropO fk with
    | .ok => remove_drop_fks dropO rest (dropConstraint fk db)
    | .integrityError => remove_drop_fks dropO rest db
    | .undefinedObject => remove_drop_fks dropO rest db
    | .otherError code => .error code

/-- `remove_vocab_foreign_key_constraints` from sqlsynthgen/utils.py. -/
def remove_vocab_foreign_key_constraints (metadata : List (String × List FK))
    (dropO : FK → DropOutcome) :
    List String → List FK → Except DbError (List FK)
  | [], db => .ok db
  | t :: rest, db =>
    match dlookup t metadata with
    | none => .error .keyError
    | some fks =>
      match remove_drop_fks dropO fks db with
      | .error code => .error (.dbError code)
      | .ok db2 => remove_vocab_foreign_key_constraints metadata dropO rest db2

/-- The foreign keys a table has in a constraint state, as
(referencing columns, referenced targets) pairs. -/
def tableFkeyPairs (t : String) (db : List FK) :
    List (List String × List String) :=
  (db.filter (fun k => k.table == t)).map (fun k => (k.columns, k.refcolumns))

theorem mem_dropConstraint (k fk : FK) (db : List FK) :
    k ∈ dropConstraint fk db ↔
      k ∈ db ∧ ¬(k.table = fk.table ∧ k.name = fk.name) := by
  unfold dropConstraint
  rw [List.mem_filter]
  simp
  intro _
  tauto

theorem create_drop_fks_ok (dropO : FK → DropOutcome) :
    ∀ fks : List FK,
      (∀ fk ∈ fks, ∀ code, dropO fk ≠ .otherError code) →
      create_drop_fks dropO fks = .ok () := by
  intro fks
  induction fks with
  | nil => intro _; rfl
  | cons fk rest ih =>
    intro h
    unfold create_drop_fks
    cases hd : dropO fk with
    | ok => exact ih (fun f hf => h f (List.mem_cons_of_mem _ hf))
    | integrityError => exact ih (fun f hf => h f (List.mem_cons_of_mem _ hf))
    | undefinedObject => exact ih (fun f hf => h f (List.mem_cons_of_mem _ hf))
    | otherError code => exact absurd hd (h fk (by simp) code)

theorem vocab_load_loop_ok (metadata : List (String × List FK))
    (dropO : FK → DropOutcome) (loadO : String → LoadOutcome) :
    ∀ vocab : List String,
      (∀ t ∈ vocab, (dlookup t metadata).isSome) →
      (∀ fk code, dropO fk ≠ .otherError code) →
      (∀ t code, loadO t ≠ .otherError code) →
      vocab_load_loop metadata dropO loadO vocab =
        .ok (vocab.filter (fun t => decide (loadO t = .ok))) := by
  intro vocab
  induction vocab with
  | nil => intro _ _ _; rfl
  | cons t rest ih =>
    intro h1 h2 h3
    unfold vocab_load_loop
    cases hlk : dlookup t metadata with
    | none =>
      have := h1 t (by simp)
      rw [hlk] at this
      exact absurd this (by simp)
    | some fks =>
      simp only []
      rw [create_drop_fks_ok dropO fks (fun f _ code => h2 f code)]
      simp only []
      have ihr := ih (fun s hs => h1 s (List.mem_cons_of_mem _ hs)) h2 h3
      cases hld : loadO t with
      | ok =>
        simp only []
        rw [ihr]
        simp [List.filter_cons, hld]
      | integrityError =>
        simp only []
        rw [ihr]
        simp [List.filter_cons, hld]
      | otherError code => exact absurd hld (h3 t code)

theorem restore_columns_ok (addO : FK → AddOutcome) (t staleTable : String)
    (h : ∀ fk code, addO fk ≠ .otherError code) :
    ∀ (cols : List (String × List String)) (db : List FK),
      ∃ db2, restore_columns addO t staleTable cols db = .ok db2 := by
  intro cols
  induction cols with
  | nil => intro db; exact ⟨db, rfl⟩
  | cons ct rest ih =>
    intro db
    obtain ⟨c, fk_targets⟩ := ct
    unfold restore_columns
    by_cases he : fk_targets = []
    · rw [if_pos he]
      exact ih db
    · rw [if_neg he]
      cases ha : addO ⟨make_foreign_key_name t c, staleTable, [c], fk_targets⟩ with
      | ok => exact ih _
      | integrityError => exact ⟨db, rfl⟩
      | otherError code => exact absurd ha (h _ code)

theorem restore_loop_ok
    (meta_dict : List (String × List (String × List String)))
    (addO : FK → AddOutcome) (staleTable : String)
    (h5 : ∀ fk code, addO fk ≠ .otherError code) :
    ∀ (vocab : List String) (db : List FK),
      (∀ t ∈ vocab, (dlookup t meta_dict).isSome) →
      ∃ db2, restore_loop meta_dict addO staleTable vocab db = .ok db2 := by
  intro vocab
  induction vocab with
  | nil => intro db _; exact ⟨db, rfl⟩
  | cons t rest ih =>
    intro db h4
    unfold restore_loop
    cases hlk : dlookup t meta_dict with
    | none =>
      have := h4 t (by simp)
      rw [hlk] at this
      exact absurd this (by simp)
    | some cols =>
      simp only []
      obtain ⟨db1, hdb1⟩ := restore_columns_ok addO t staleTable h5 cols db
      rw [hdb1]
      simp only []
      exact ih db1 (fun s hs => h4 s (List.mem_cons_of_mem _ hs))

theorem create_db_vocab_ok (metadata : List (String × List FK))
    (meta_dict : List (String × List (String × List String)))
    (vocab : List String) (dropO : FK → DropOutcome)
    (loadO : String → LoadOutcome) (addO : FK → AddOutcome) (db : List FK)
    (h1 : ∀ t ∈ vocab, (dlookup t metadata).isSome)
    (h2 : ∀ fk code, dropO fk ≠ .otherError code)
    (h3 : ∀ t code, loadO t ≠ .otherError code)
    (h4 : ∀ t ∈ vocab, (dlookup t meta_dict).isSome)
    (h5 : ∀ fk code, addO fk ≠ .otherError code) :
    ∃ db2, create_db_vocab metadata meta_dict vocab dropO loadO addO db =
      .ok (db2, vocab.filter (fun t => decide (loadO t = .ok))) := by
  unfold create_db_vocab
  rw [vocab_load_loop_ok metadata dropO loadO vocab h1 h2 h3]
  simp only []
  cases hgl : vocab.getLast? with
  | none => exact ⟨db, rfl⟩
  | some staleName =>
    simp only []
    obtain ⟨db2, hdb2⟩ := restore_loop_ok meta_dict addO staleName h5 vocab db h4
    rw [hdb2]
    exact ⟨db2, rfl⟩

theorem vocab_load_loop_drop_irrelevant (metadata : List (String × List FK))
    (dropO : FK → DropOutcome) (loadO : String → LoadOutcome)
    (h2 : ∀ fk code, dropO fk ≠ .otherError code) :
    ∀ vocab : List String,
      vocab_load_loop metadata dropO loadO vocab =
        vocab_load_loop metadata (fun _ => .ok) loadO vocab := by
  intro vocab
  induction vocab with
  | nil => rfl
  | cons t rest ih =>
    unfold vocab_load_loop
    cases hlk : dlookup t metadata with
    | none => rfl
    | some fks =>
      simp only []
      rw [create_drop_fks_ok dropO fks (fun f _ code => h2 f code),
        create_drop_fks_ok (fun _ => .ok) fks (fun f _ code => by simp)]
      simp only []
      rw [ih]

/-- With no fatal drop outcome, `create_db_vocab` behaves exactly as if
every drop had succeeded: swallowed and skipped drop failures change
nothing, and in particular every table's load is still attempted. -/
theorem create_db_vocab_drop_irrelevant (metadata : List (String × List FK))
    (meta_dict : List (String × List (String × List String)))
    (vocab : List String) (dropO : FK → DropOutcome)
    (loadO : String → LoadOutcome) (addO : FK → AddOutcome) (db : List FK)
    (h2 : ∀ fk code, dropO fk ≠ .otherError code) :
    create_db_vocab metadata meta_dict vocab dropO loadO addO db =
      create_db_vocab metadata meta_dict vocab (fun _ => .ok) loadO addO db := by
  unfold create_db_vocab
  rw [vocab_load_loop_drop_irrelevant metadata dropO loadO h2 vocab]

theorem remove_drop_fks_ok (dropO : FK → DropOutcome) :
    ∀ (fks : List FK) (db : List FK),
      (∀ fk ∈ fks, ∀ code, dropO fk ≠ .otherError code) →
      ∃ db2, remove_drop_fks dropO fks db = .ok db2 ∧
        ∀ k, k ∈ db2 ↔ k ∈ db ∧
          ¬∃ fk ∈ fks, dropO fk = .ok ∧
            k.table = fk.table ∧ k.name = fk.name := by
  intro fks
  induction fks with
  | nil =>
    intro db _
    exact ⟨db, rfl, by simp⟩
  | cons fk rest ih =>
    intro db h
    cases hd : dropO fk with
    | ok =>
      obtain ⟨db2, heq, hmem⟩ := ih (dropConstraint fk db)
        (fun f hf code => h f (List.mem_cons_of_mem _ hf) code)
      refine ⟨db2, ?_, ?_⟩
      · unfold remove_drop_fks
        rw [hd]
        exact heq
      · intro k
        rw [hmem k, mem_dropConstraint]
        constructor
        · rintro ⟨⟨hk, hnm⟩, hrest⟩
          refine ⟨hk, ?_⟩
          rintro ⟨f, hf, hPok, hPt, hPn⟩
          rcases List.mem_cons.mp hf with he | hf2
          · exact hnm (by rw [he] at hPt hPn; exact ⟨hPt, hPn⟩)
          · exact hrest ⟨f, hf2, hPok, hPt, hPn⟩
        · rintro ⟨hk, hnall⟩
          refine ⟨⟨hk, ?_⟩, ?_⟩
          · rintro ⟨hPt, hPn⟩
            exact hnall ⟨fk, by simp, hd, hPt, hPn⟩
          · rintro ⟨f, hf2, hPok, hPt, hPn⟩
            exact hnall ⟨f, List.mem_cons_of_mem _ hf2, hPok, hPt, hPn⟩
    | integrityError =>
      obtain ⟨db2, heq, hmem⟩ := ih db
        (fun f hf code => h f (List.mem_cons_of_mem _ hf) code)
      refine ⟨db2, ?_, ?_⟩
      · unfold remove_drop_fks
        rw [hd]
        exact heq
      · intro k
        rw [hmem k]
        constructor
        · rintro ⟨hk, hrest⟩
          refine ⟨hk, ?_⟩
          rintro ⟨f, hf, hPok, hPt, hPn⟩
          rcases List.mem_cons.mp hf with he | hf2
          · rw [he] at hPok
            rw [hPok] at hd
            exact absurd hd (by simp)
          · exact hrest ⟨f, hf2, hPok, hPt, hPn⟩
        · rintro ⟨hk, hnall⟩
          refine ⟨hk, ?_⟩
          rintro ⟨f, hf2, hPok, hPt, hPn⟩
          exact hnall ⟨f, List.mem_cons_of_mem _ hf2, hPok, hPt, hPn⟩
    | undefinedObject =>
      obtain ⟨db2, heq, hmem⟩ := ih db
        (fun f hf code => h f (List.mem_cons_of_mem _ hf) code)
      refine ⟨db2, ?_, ?_⟩
      · unfold remove_drop_fks
        rw [hd]
        exact heq
      · intro k
        rw [hmem k]
        constructor
        · rintro ⟨hk, hrest⟩
          refine ⟨hk, ?_⟩
          rintro ⟨f, hf, hPok, hPt, hPn⟩
          rcases List.mem_cons.mp hf with he | hf2
          · rw [he] at hPok
            rw [hPok] at hd
            exact absurd hd (by simp)
          · exact hrest ⟨f, hf2, hPok, hPt, hPn⟩
        · rintro ⟨hk, hnall⟩
          refine ⟨hk, ?_⟩
          rintro ⟨f, hf2, hPok, hPt, hPn⟩
          exact hnall ⟨f, List.mem_cons_of_mem _ hf2, hPok, hPt, hPn⟩
    | otherError code => exact absurd hd (h fk (by simp) code)

theorem remove_vocab_ok (metadata : List (String × List FK))
    (dropO : FK → DropOutcome) :
    ∀ (vocab : List String) (db : List FK),
      (∀ t ∈ vocab, (dlookup t metadata).isSome) →
      (∀ fk code, dropO fk ≠ .otherError code) →
      ∃ db2,
        remove_vocab_foreign_key_constraints metadata dropO vocab db =
          .ok db2 ∧
        ∀ k, k ∈ db2 ↔ k ∈ db ∧
          ¬∃ t ∈ vocab, ∃ fk ∈ (dlookup t metadata).getD [],
            dropO fk = .ok ∧ k.table = fk.table ∧ k.name = fk.name := by
  intro vocab
  induction vocab with
  | nil =>
    intro db _ _
    exact ⟨db, rfl, by simp⟩
  | cons t rest ih =>
    intro db h1 h2
    cases hlk : dlookup t metadata with
    | none =>
      have := h1 t (by simp)
      rw [hlk] at this
      exact absurd this (by simp)
    | some fks =>
      obtain ⟨db1, heq1, hmem1⟩ := remove_drop_fks_ok dropO fks db
        (fun f _ code => h2 f code)
      obtain ⟨db2, heq2, hmem2⟩ := ih db1
        (fun s hs => h1 s (List.mem_cons_of_mem _ hs)) h2
      refine ⟨db2, ?_, ?_⟩
      · unfold remove_vocab_foreign_key_constraints
        rw [hlk]
        simp only []
        rw [heq1]
        exact heq2
      · intro k
        rw [hmem2 k, hmem1 k]
        constructor
        · rintro ⟨⟨hk, hfst⟩, hrest⟩
          refine ⟨hk, ?_⟩
          rintro ⟨s, hs, f, hf, hPok, hPt, hPn⟩
          rcases List.mem_cons.mp hs with he | hs2
          · rw [he, hlk] at hf
            exact hfst ⟨f, by simpa using hf, hPok, hPt, hPn⟩
          · exact hrest ⟨s, hs2, f, hf, hPok, hPt, hPn⟩
        · rintro ⟨hk, hnall⟩
          refine ⟨⟨hk, ?_⟩, ?_⟩
          · rintro ⟨f, hf, hPok, hPt, hPn⟩
            exact hnall ⟨t, by simp, f, by simp [hlk, hf], hPok, hPt, hPn⟩
          · rintro ⟨s, hs2, f, hf, hPok, hPt, hPn⟩
            exact hnall ⟨s, List.mem_cons_of_mem _ hs2, f, hf, hPok, hPt, hPn⟩

theorem remove_vocab_fatal (metadata : List (String × List FK))
    (dropO : FK → DropOutcome) (t : String) (rest : List String)
    (fk : FK) (fks : List FK) (db : List FK) (code : Nat)
    (hlk : dlookup t metadata = some (fk :: fks))
    (hd : dropO fk = .otherError code) :
    remove_vocab_foreign_key_constraints metadata dropO (t :: rest) db =
      .error (.dbError code) := by
  have hstep : remove_drop_fks dropO (fk :: fks) db = .error code := by
    unfold remove_drop_fks
    rw [hd]
  unfold remove_vocab_foreign_key_constraints
  rw [hlk]
  simp only []
  rw [hstep]

theorem create_db_vocab_fatal (metadata : List (String × List FK))
    (meta_dict : List (String × List (String × List String)))
    (dropO : FK → DropOutcome) (loadO : String → LoadOutcome)
    (addO : FK → AddOutcome) (t : String) (rest : List String)
    (fk : FK) (fks : List FK) (db : List FK) (code : Nat)
    (hlk : dlookup t metadata = some (fk :: fks))
    (hd : dropO fk = .otherError code) :
    create_db_vocab metadata meta_dict (t :: rest) dropO loadO addO db =
      .error (.dbError code) := by
  have hstep : create_drop_fks dropO (fk :: fks) = .error code := by
    unfold create_drop_fks
    rw [hd]
  unfold create_db_vocab
  unfold vocab_load_loop
  rw [hlk]
  simp only []
  rw [hstep]

theorem remove_drop_fks_fatal_at (dropO : FK → DropOutcome) (fk : FK)
    (fksRest : List FK) (code : Nat) (hd : dropO fk = .otherError code) :
    ∀ (fksPre : List FK) (db : List FK),
      (∀ f ∈ fksPre, ∀ c, dropO f ≠ .otherError c) →
      remove_drop_fks dropO (fksPre ++ fk :: fksRest) db = .error code := by
  intro fksPre
  induction fksPre with
  | nil =>
    intro db _
    rw [List.nil_append]
    unfold remove_drop_fks
    rw [hd]
  | cons f fs ih =>
    intro db h
    rw [List.cons_append]
    unfold remove_drop_fks
    cases hdf : dropO f with
    | ok =>
      simp only []
      exact ih (dropConstraint f db)
        (fun g hg c => h g (List.mem_cons_of_mem _ hg) c)
    | integrityError =>
      simp only []
      exact ih db (fun g hg c => h g (List.mem_cons_of_mem _ hg) c)
    | undefinedObject =>
      simp only []
      exact ih db (fun g hg c => h g (List.mem_cons_of_mem _ hg) c)
    | otherError c => exact absurd hdf (h f (by simp) c)

theorem create_drop_fks_fatal_at (dropO : FK → DropOutcome) (fk : FK)
    (fksRest : List FK) (code : Nat) (hd : dropO fk = .otherError code) :
    ∀ fksPre : List FK,
      (∀ f ∈ fksPre, ∀ c, dropO f ≠ .otherError c) →
      create_drop_fks dropO (fksPre ++ fk :: fksRest) = .error code := by
  intro fksPre
  induction fksPre with
  | nil =>
    intro _
    rw [List.nil_append]
    unfold create_drop_fks
    rw [hd]
  | cons f fs ih =>
    intro h
    rw [List.cons_append]
    unfold create_drop_fks
    cases hdf : dropO f with
    | ok =>
      simp only []
      exact ih (fun g hg c => h g (List.mem_cons_of_mem _ hg) c)
    | integrityError =>
      simp only []
      exact ih (fun g hg c => h g (List.mem_cons_of_mem _ hg) c)
    | undefinedObject =>
      simp only []
      exact ih (fun g hg c => h g (List.mem_cons_of_mem _ hg) c)
    | otherError c => exact absurd hdf (h f (by simp) c)

/-- A fatal drop error at an arbitrary position — any constraint of any
vocabulary table, provided everything processed before it was non-fatal —
propagates out of `remove_vocab_foreign_key_constraints`. -/
theorem remove_vocab_fatal_at (metadata : List (String × List FK))
    (dropO : FK → DropOutcome) (t : String) (fk : FK)
    (fksPre fksRest : List FK) (code : Nat)
    (hlk : dlookup t metadata = some (fksPre ++ fk :: fksRest))
    (hpredrop : ∀ f ∈ fksPre, ∀ c, dropO f ≠ .otherError c)
    (hd : dropO fk = .otherError code) :
    ∀ (pre rest : List String) (db : List FK),
      (∀ s ∈ pre, (dlookup s metadata).isSome) →
      (∀ s ∈ pre, ∀ f ∈ (dlookup s metadata).getD [], ∀ c,
        dropO f ≠ .otherError c) →
      remove_vocab_foreign_key_constraints metadata dropO
        (pre ++ t :: rest) db = .error (.dbError code) := by
  intro pre
  induction pre with
  | nil =>
    intro rest db _ _
    rw [List.nil_append]
    unfold remove_vocab_foreign_key_constraints
    rw [hlk]
    simp only []
    rw [remove_drop_fks_fatal_at dropO fk fksRest code hd fksPre db hpredrop]
  | cons s pres ih =>
    intro rest db h1 h2
    rw [List.cons_append]
    unfold remove_vocab_foreign_key_constraints
    cases hlks : dlookup s metadata with
    | none =>
      have := h1 s (by simp)
      rw [hlks] at this
      exact absurd this (by simp)
    | some fks =>
      simp only []
      have h2s : ∀ f ∈ fks, ∀ c, dropO f ≠ .otherError c := by
        have := h2 s (by simp)
        rw [hlks] at this
        simpa using this
      obtain ⟨db1, heq1, _⟩ :=
        remove_drop_fks_ok dropO fks db (fun f hf c => h2s f hf c)
      rw [heq1]
      simp only []
      exact ih rest db1
        (fun u hu => h1 u (List.mem_cons_of_mem _ hu))
        (fun u hu => h2 u (List.mem_cons_of_mem _ hu))

/-- A fatal drop error at an arbitrary position propagates out of
`vocab_load_loop` (the drop-and-load loop of `create_db_vocab`), provided
the tables before it looked up, dropped and loaded without a fatal
error. -/
theorem vocab_load_loop_fatal_at (metadata : List (String × List FK))
    (dropO : FK → DropOutcome) (loadO : String → LoadOutcome) (t : String)
    (fk : FK) (fksPre fksRest : List FK) (code : Nat)
    (hlk : dlookup t metadata = some (fksPre ++ fk :: fksRest))
    (hpredrop : ∀ f ∈ fksPre, ∀ c, dropO f ≠ .otherError c)
    (hd : dropO fk = .otherError code) :
    ∀ (pre rest : List String),
      (∀ s ∈ pre, (dlookup s metadata).isSome) →
      (∀ s ∈ pre, ∀ f ∈ (dlookup s metadata).getD [], ∀ c,
        dropO f ≠ .otherError c) →
      (∀ s ∈ pre, ∀ c, loadO s ≠ .otherError c) →
      vocab_load_loop metadata dropO loadO (pre ++ t :: rest) =
        .error (.dbError code) := by
  intro pre
  induction pre with
  | nil =>
    intro rest _ _ _
    rw [List.nil_append]
    unfold vocab_load_loop
    rw [hlk]
    simp only []
    rw [create_drop_fks_fatal_at dropO fk fksRest code hd fksPre hpredrop]
  | cons s pres ih =>
    intro rest h1 h2 h3
    rw [List.cons_append]
    unfold vocab_load_loop
    cases hlks : dlookup s metadata with
    | none =>
      have := h1 s (by simp)
      rw [hlks] at this
      exact absurd this (by simp)
    | some fks =>
      simp only []
      have h2s : ∀ f ∈ fks, ∀ c, dropO f ≠ .otherError c := by
        have := h2 s (by simp)
        rw [hlks] at this
        simpa using this
      rw [create_drop_fks_ok dropO fks h2s]
      simp only []
      have ihr := ih rest
        (fun u hu => h1 u (List.mem_cons_of_mem _ hu))
        (fun u hu => h2 u (List.mem_cons_of_mem _ hu))
        (fun u hu => h3 u (List.mem_cons_of_mem _ hu))
      cases hls : loadO s with
      | ok =>
        simp only []
        rw [ihr]
      | integrityError =>
        simp only []
        exact ihr
      | otherError c => exact absurd hls (h3 s (by simp) c)

/-- A fatal drop error at an arbitrary position propagates out of
`create_db_vocab`. -/
theorem create_db_vocab_fatal_at (metadata : List (String × List FK))
    (meta_dict : List (String × List (String × List String)))
    (dropO : FK → DropOutcome) (loadO : String → LoadOutcome)
    (addO : FK → AddOutcome) (t : String) (fk : FK)
    (fksPre fksRest : List FK) (code : Nat) (pre rest : List String)
    (db : List FK)
    (hlk : dlookup t metadata = some (fksPre ++ fk :: fksRest))
    (hpredrop : ∀ f ∈ fksPre, ∀ c, dropO f ≠ .otherError c)
    (hd : dropO fk = .otherError code)
    (h1 : ∀ s ∈ pre, (dlookup s metadata).isSome)
    (h2 : ∀ s ∈ pre, ∀ f ∈ (dlookup s metadata).getD [], ∀ c,
      dropO f ≠ .otherError c)
    (h3 : ∀ s ∈ pre, ∀ c, loadO s ≠ .otherError c) :
    create_db_vocab metadata meta_dict (pre ++ t :: rest) dropO loadO addO
      db = .error (.dbError code) := by
  unfold create_db_vocab
  rw [vocab_load_loop_fatal_at metadata dropO loadO t fk fksPre fksRest
    code hlk hpredrop hd pre rest h1 h2 h3]

theorem remove_drop_fks_ok_no_fatal (dropO : FK → DropOutcome) :
    ∀ (fks db db2 : List FK),
      remove_drop_fks dropO fks db = .ok db2 →
      ∀ f ∈ fks, ∀ code, dropO f ≠ .otherError code := by
  intro fks
  induction fks with
  | nil =>
    intro db db2 _ f hf
    exact absurd hf (List.not_mem_nil f)
  | cons f0 fs ih =>
    intro db db2 h f hf code
    unfold remove_drop_fks at h
    cases hdf : dropO f0 with
    | ok =>
      rw [hdf] at h
      simp only [] at h
      rcases List.mem_cons.mp hf with he | hf2
      · rw [he, hdf]
        simp
      · exact ih (dropConstraint f0 db) db2 h f hf2 code
    | integrityError =>
      rw [hdf] at h
      simp only [] at h
      rcases List.mem_cons.mp hf with he | hf2
      · rw [he, hdf]
        simp
      · exact ih db db2 h f hf2 code
    | undefinedObject =>
      rw [hdf] at h
      simp only [] at h
      rcases List.mem_cons.mp hf with he | hf2
      · rw [he, hdf]
        simp
      · exact ih db db2 h f hf2 code
    | otherError c =>
      rw [hdf] at h
      exact absurd h (by simp)

/-- `remove_vocab_foreign_key_constraints` never swallows a fatal drop
error: when it returns normally, no drop it executed had a fatal
outcome. -/
theorem remove_vocab_ok_no_fatal (metadata : List (String × List FK))
    (dropO : FK → DropOutcome) :
    ∀ (vocab : List String) (db db2 : List FK),
      remove_vocab_foreign_key_constraints metadata dropO vocab db =
        .ok db2 →
      ∀ t ∈ vocab, ∀ f ∈ (dlookup t metadata).getD [], ∀ code,
        dropO f ≠ .otherError code := by
  intro vocab
  induction vocab with
  | nil =>
    intro db db2 _ t ht
    exact absurd ht (List.not_mem_nil t)
  | cons t0 rest ih =>
    intro db db2 h t ht f hf code
    unfold remove_vocab_foreign_key_constraints at h
    cases hlk : dlookup t0 metadata with
    | none =>
      rw [hlk] at h
      exact absurd h (by simp)
    | some fks =>
      rw [hlk] at h
      simp only [] at h
      cases hdr : remove_drop_fks dropO fks db with
      | error c =>
        rw [hdr] at h
        exact absurd h (by simp)
      | ok db1 =>
        rw [hdr] at h
        simp only [] at h
        rcases List.mem_cons.mp ht with he | ht2
        · rw [he, hlk] at hf
          exact remove_drop_fks_ok_no_fatal dropO fks db db1 hdr f
            (by simpa using hf) code
        · exact ih db1 db2 h t ht2 f hf code

theorem create_drop_fks_ok_no_fatal (dropO : FK → DropOutcome) :
    ∀ (fks : List FK) (u : Unit),
      create_drop_fks dropO fks = .ok u →
      ∀ f ∈ fks, ∀ code, dropO f ≠ .otherError code := by
  intro fks
  induction fks with
  | nil =>
    intro u _ f hf
    exact absurd hf (List.not_mem_nil f)
  | cons f0 fs ih =>
    intro u h f hf code
    unfold create_drop_fks at h
    cases hdf : dropO f0 with
    | ok =>
      rw [hdf] at h
      rcases List.mem_cons.mp hf with he | hf2
      · rw [he, hdf]
        simp
      · exact ih u h f hf2 code
    | integrityError =>
      rw [hdf] at h
      rcases List.mem_cons.mp hf with he | hf2
      · rw [he, hdf]
        simp
      · exact ih u h f hf2 code
    | undefinedObject =>
      rw [hdf] at h
      rcases List.mem_cons.mp hf with he | hf2
      · rw [he, hdf]
        simp
      · exact ih u h f hf2 code
    | otherError c =>
      rw [hdf] at h
      exact absurd h (by simp)

theorem vocab_load_loop_ok_no_fatal (metadata : List (String × List FK))
    (dropO : FK → DropOutcome) (loadO : String → LoadOutcome) :
    ∀ (vocab : List String) (loaded : List String),
      vocab_load_loop metadata dropO loadO vocab = .ok loaded →
      ∀ t ∈ vocab, ∀ f ∈ (dlookup t metadata).getD [], ∀ code,
        dropO f ≠ .otherError code := by
  intro vocab
  induction vocab with
  | nil =>
    intro loaded _ t ht
    exact absurd ht (List.not_mem_nil t)
  | cons t0 rest ih =>
    intro loaded h t ht f hf code
    unfold vocab_load_loop at h
    cases hlk : dlookup t0 metadata with
    | none =>
      rw [hlk] at h
      exact absurd h (by simp)
    | some fks =>
      rw [hlk] at h
      simp only [] at h
      cases hcd : create_drop_fks dropO fks with
      | error c =>
        rw [hcd] at h
        exact absurd h (by simp)
      | ok u =>
        rw [hcd] at h
        simp only [] at h
        rcases List.mem_cons.mp ht with he | ht2
        · rw [he, hlk] at hf
          exact create_drop_fks_ok_no_fatal dropO fks u hcd f
            (by simpa using hf) code
        · cases hls : loadO t0 with
          | ok =>
            rw [hls] at h
            simp only [] at h
            cases hrec : vocab_load_loop metadata dropO loadO rest with
            | error e =>
              rw [hrec] at h
              exact absurd h (by simp)
            | ok l2 =>
              rw [hrec] at h
              exact ih l2 hrec t ht2 f hf code
          | integrityError =>
            rw [hls] at h
            exact ih loaded h t ht2 f hf code
          | otherError c =>
            rw [hls] at h
            exact absurd h (by simp)

/-- `create_db_vocab` never swallows a fatal drop error: when it returns
normally, no drop it executed had a fatal outcome. -/
theorem create_db_vocab_ok_no_fatal (metadata : List (String × List FK))
    (meta_dict : List (String × List (String × List String)))
    (vocab : List String) (dropO : FK → DropOutcome)
    (loadO : String → LoadOutcome) (addO : FK → AddOutcome)
    (db db2 : List FK) (loaded : List String)
    (h : create_db_vocab metadata meta_dict vocab dropO loadO addO db =
      .ok (db2, loaded)) :
    ∀ t ∈ vocab, ∀ f ∈ (dlookup t metadata).getD [], ∀ code,
      dropO f ≠ .otherError code := by
  unfold create_db_vocab at h
  cases hll : vocab_load_loop metadata dropO loadO vocab with
  | error e =>
    rw [hll] at h
    exact absurd h (by simp)
  | ok loaded2 =>
    exact vocab_load_loop_ok_no_fatal metadata dropO loadO vocab loaded2 hll

/-! ## Configuration helpers and `sorted_non_vocabulary_tables`
(sqlsynthgen/utils.py) -/

/-- `get_vocabulary_table_names(config)` from sqlsynthgen/utils.py: the
table names whose table config carries a true `vocabulary_table` flag.  The
config is modelled as its `tables` mapping, each table name paired with
that flag. -/
def get_vocabulary_table_names (config : List (String × Bool)) :
    List String :=
  (config.filter (fun tc => tc.2)).map (fun tc => tc.1)

/-- `sorted_non_vocabulary_tables(metadata, config)` from
sqlsynthgen/utils.py: drop the vocabulary tables from the metadata's table
names and topologically sort the rest; the dependency function
`get_related_table_names` is modelled by the metadata entry itself, which
maps each table name to the names of the tables it references by foreign
key.  (The cycles are only logged, the sorted list is returned.) -/
def sorted_non_vocabulary_tables (metadata : List (String × List String))
    (config : List (String × Bool)) : List String :=
  (topological_sort
    ((metadata.map Prod.fst).filter
      (fun tn => decide (tn ∉ get_vocabulary_table_names config)))
    (fun tn => (dlookup tn metadata).getD [])).1

/-! ## Unique-value generator

`sqlsynthgen/unique_generator.py` is not under src/ (only generated callers
such as tests/examples/expected_ssg.py use it), so the class is modelled
from the specification. -/

/-- Modelled from the spec: `sqlsynthgen/unique_generator.py` is missing
from the tree.  §4.5: a `UniqueGenerator(columns, table_name, max_tries)`
wraps a generation function and keeps, per (table, column-list) scope, the
set of value-tuples it has already returned. -/
structure UniqueGenerator (V : Type) : Type where
  columns : List String
  table_name : String
  max_tries : Nat
  seen : List (List V)

/-- The exhaustion condition, "naming the constraint and attempt bound"
(§7). -/
structure UniqueExhausted : Type where
  table_name : String
  columns : List String
  max_tries : Nat
  deriving DecidableEq

/-- Modelled from the spec: the retry loop of the missing
unique_generator.py.  Try the generation function (a stream of candidate
tuples, one per attempt) until a tuple not in the tracked set appears,
giving up after `remaining` attempts. -/
def findNovel {V : Type} [DecidableEq V] (seen : List (List V))
    (fn : Nat → List V) : Nat → Nat → Option (List V)
  | _, 0 => none
  | i, Nat.succ remaining =>
    if fn i ∈ seen then findNovel seen fn (i + 1) remaining
    else some (fn i)

/-- Modelled from the spec: one call of the missing UniqueGenerator (§4.5):
"repeatedly invoke the generator until a tuple not already present in the
tracked set for that (table, column-list) scope is produced, then record
and return it.  Exceeding the attempt bound is a fatal condition". -/
def uniqueGeneratorCall {V : Type} [DecidableEq V] (g : UniqueGenerator V)
    (fn : Nat → List V) :
    Except UniqueExhausted (List V × UniqueGenerator V) :=
  match findNovel g.seen fn 0 g.max_tries with
  | some tup =>
    .ok (tup, ⟨g.columns, g.table_name, g.max_tries, tup :: g.seen⟩)
  | none => .error ⟨g.table_name, g.columns, g.max_tries⟩

/-- A sequence of calls of one UniqueGenerator within one run, each with its
own generation function, threading the tracked set through. -/
def uniqueGeneratorRun {V : Type} [DecidableEq V] :
    UniqueGenerator V → List (Nat → List V) →
      Except UniqueExhausted (List (List V) × UniqueGenerator V)
  | g, [] => .ok ([], g)
  | g, fn :: rest =>
    match uniqueGeneratorCall g fn with
    | .error e => .error e
    | .ok (tup, g2) =>
      match uniqueGeneratorRun g2 rest with
      | .error e => .error e
      | .ok (tups, g3) => .ok (tup :: tups, g3)

theorem findNovel_some {V : Type} [DecidableEq V] (seen : List (List V))
    (fn : Nat → List V) :
    ∀ (remaining i : Nat) (tup : List V),
      findNovel seen fn i remaining = some tup → tup ∉ seen := by
  intro remaining
  induction remaining with
  | zero =>
    intro i tup h
    exact absurd h (by simp [findNovel])
  | succ k ih =>
    intro i tup h
    unfold findNovel at h
    by_cases hm : fn i ∈ seen
    · rw [if_pos hm] at h
      exact ih (i + 1) tup h
    · rw [if_neg hm] at h
      injection h with h2
      rw [← h2]
      exact hm

theorem findNovel_none {V : Type} [DecidableEq V] (seen : List (List V))
    (fn : Nat → List V) :
    ∀ (remaining i : Nat),
      (∀ j, j < remaining → fn (i + j) ∈ seen) →
      findNovel seen fn i remaining = none := by
  intro remaining
  induction remaining with
  | zero => intro i _; rfl
  | succ k ih =>
    intro i h
    unfold findNovel
    rw [if_pos (by simpa using h 0 (by omega))]
    refine ih (i + 1) ?_
    intro j hj
    have := h (j + 1) (by omega)
    simpa [Nat.add_assoc, Nat.add_comm 1 j] using this

theorem uniqueGeneratorCall_ok {V : Type} [DecidableEq V]
    (g : UniqueGenerator V) (fn : Nat → List V) (tup : List V)
    (g2 : UniqueGenerator V)
    (h : uniqueGeneratorCall g fn = .ok (tup, g2)) :
    tup ∉ g.seen ∧ g2.seen = tup :: g.seen := by
  unfold uniqueGeneratorCall at h
  cases hf : findNovel g.seen fn 0 g.max_tries with
  | none => rw [hf] at h; exact absurd h (by simp)
  | some tup2 =>
    rw [hf] at h
    simp only [] at h
    injection h with h2
    injection h2 with h3 h4
    have hnm := findNovel_some g.seen fn g.max_tries 0 tup2 hf
    rw [h3] at hnm
    refine ⟨hnm, ?_⟩
    rw [← h4, h3]

theorem uniqueGeneratorRun_nodup {V : Type} [DecidableEq V] :
    ∀ (fns : List (Nat → List V)) (g g3 : UniqueGenerator V)
      (tups : List (List V)),
      uniqueGeneratorRun g fns = .ok (tups, g3) →
      tups.Nodup ∧ ∀ tup ∈ tups, tup ∉ g.seen := by
  intro fns
  induction fns with
  | nil =>
    intro g g3 tups h
    unfold uniqueGeneratorRun at h
    injection h with h2
    injection h2 with h3 h4
    rw [← h3]
    exact ⟨List.nodup_nil, by simp⟩
  | cons fn rest ih =>
    intro g g3 tups h
    unfold uniqueGeneratorRun at h
    cases hc : uniqueGeneratorCall g fn with
    | error e => rw [hc] at h; exact absurd h (by simp)
    | ok tg2 =>
      obtain ⟨tup, g2⟩ := tg2
      rw [hc] at h
      simp only [] at h
      cases hr : uniqueGeneratorRun g2 rest with
      | error e => rw [hr] at h; exact absurd h (by simp)
      | ok tg3 =>
        obtain ⟨tups2, g4⟩ := tg3
        rw [hr] at h
        simp only [] at h
        injection h with h2
        injection h2 with h3 h4
        obtain ⟨hseen, hseencons⟩ := uniqueGeneratorCall_ok g fn tup g2 hc
        obtain ⟨hnd2, hnm2⟩ := ih g2 g4 tups2 hr
        rw [← h3]
        constructor
        · refine List.nodup_cons.mpr ⟨?_, hnd2⟩
          intro hmem
          have := hnm2 tup hmem
          rw [hseencons] at this
          exact this (by simp)
        · intro t ht
          rcases List.mem_cons.mp ht with he | ht2
          · rw [he]
            exact hseen
          · have := hnm2 t ht2
            rw [hseencons] at this
            exact fun hm => this (List.mem_cons_of_mem _ hm)

theorem uniqueGeneratorCall_exhausted {V : Type} [DecidableEq V]
    (g : UniqueGenerator V) (fn : Nat → List V)
    (h : ∀ j, j < g.max_tries → fn j ∈ g.seen) :
    uniqueGeneratorCall g fn =
      .error ⟨g.table_name, g.columns, g.max_tries⟩ := by
  unfold uniqueGeneratorCall
  rw [findNovel_none g.seen fn g.max_tries 0 (by simpa using h)]

/-! ## Claim theorems -/

/-- C2: for every acyclic dependency graph given to `topological_sort`, the
returned order contains every input table, is duplicate-free, places each
table after all tables it depends on (dependencies appear earlier), and the
returned cycle list is empty. -/
theorem claim_C2_acyclic_topological_order {α : Type} [DecidableEq α]
    (input : List α) (deps : α → List α)
    (hacyc : ∀ c, ¬ IsDepCycle deps input c) :
    (∀ x, x ∈ (topological_sort input deps).1 ↔ x ∈ input) ∧
    (topological_sort input deps).1.Nodup ∧
    (∀ u ∈ (topological_sort input deps).1, ∀ v ∈ deps u, v ∈ input →
      List.Sublist [v, u] (topological_sort input deps).1) ∧
    (topological_sort input deps).2 = [] := by
  obtain ⟨hnd, hmem, hord, hcyc⟩ := topological_sort_spec input deps
  have hc2 : (topological_sort input deps).2 = [] := by
    cases he : (topological_sort input deps).2 with
    | nil => rfl
    | cons c cs =>
      exact absurd (hcyc c (by rw [he]; simp)) (hacyc c)
  refine ⟨hmem, hnd, ?_, hc2⟩
  intro u hu v hv hvin
  rcases hord u hu v hv with h1 | h1 | h1
  · exact h1
  · rw [hc2] at h1
    obtain ⟨c, hc, _⟩ := h1
    exact absurd hc (List.not_mem_nil c)
  · exact absurd hvin h1

/-- Dependency function of the acyclic example graph A ← B ← C. -/
def exC2deps : Nat → List Nat :=
  fun n => if n = 2 then [1] else if n = 3 then [2] else []

theorem claim_C2_acyclic_topological_order_witness :
    (∀ c, ¬ IsDepCycle exC2deps [1, 2, 3] c) ∧
    2 ∈ (topological_sort [1, 2, 3] exC2deps).1 ∧
    List.Sublist [1, 2] (topological_sort [1, 2, 3] exC2deps).1 ∧
    (topological_sort [1, 2, 3] exC2deps).2 = [] := by
  have hacyc : ∀ c, ¬ IsDepCycle exC2deps [1, 2, 3] c :=
    not_isDepCycle_of_rank id exC2deps [1, 2, 3] (by decide)
  obtain ⟨hmem, hnd, hord, hcyc⟩ :=
    claim_C2_acyclic_topological_order [1, 2, 3] exC2deps hacyc
  have h2 : 2 ∈ (topological_sort [1, 2, 3] exC2deps).1 :=
    (hmem 2).mpr (by decide)
  exact ⟨hacyc, h2, hord 2 h2 1 (by decide) (by decide), hcyc⟩

/-- C4: for every input graph containing a cycle, `topological_sort` (a
total function here, so it terminates) still outputs every input node
exactly once, reports at least one cycle, and every reported cycle (each a
contiguous slice of the in-progress stack from the re-encountered node) is
a genuine dependency cycle among the input nodes. -/
theorem claim_C4_cycle_detection {α : Type} [DecidableEq α]
    (input : List α) (deps : α → List α) (c0 : List α)
    (hcyc0 : IsDepCycle deps input c0) :
    (∀ x, x ∈ (topological_sort input deps).1 ↔ x ∈ input) ∧
    (topological_sort input deps).1.Nodup ∧
    (topological_sort input deps).2 ≠ [] ∧
    (∀ c ∈ (topological_sort input deps).2, IsDepCycle deps input c) := by
  obtain ⟨hnd, hmem, hord, hcy⟩ := topological_sort_spec input deps
  refine ⟨hmem, hnd, ?_, hcy⟩
  intro hnil
  have hrank : ∀ u, u ∈ input → ∀ v ∈ deps u, v ∈ input →
      (topological_sort input deps).1.indexOf v <
        (topological_sort input deps).1.indexOf u := by
    intro u hu v hv hvin
    have hus : u ∈ (topological_sort input deps).1 := (hmem u).mpr hu
    rcases hord u hus v hv with h1 | h1 | h1
    · exact indexOf_lt_of_pair_sublist v u _ hnd h1
    · rw [hnil] at h1
      obtain ⟨c, hc, _⟩ := h1
      exact absurd hc (List.not_mem_nil c)
    · exact absurd hvin h1
  exact not_isDepCycle_of_rank
    (fun x => (topological_sort input deps).1.indexOf x) deps input hrank
    c0 hcyc0

/-- Dependency function of the two-node cyclic example graph 1 ⇄ 2. -/
def exC4deps : Nat → List Nat :=
  fun n => if n = 1 then [2] else if n = 2 then [1] else []

theorem claim_C4_cycle_detection_witness :
    IsDepCycle exC4deps [1, 2] [1, 2] ∧
    (∀ x, x ∈ (topological_sort [1, 2] exC4deps).1 ↔ x ∈ [1, 2]) ∧
    (topological_sort [1, 2] exC4deps).1.Nodup ∧
    (topological_sort [1, 2] exC4deps).2 ≠ [] := by
  have hc : IsDepCycle exC4deps [1, 2] [1, 2] := by
    refine ⟨by simp, by decide,
      List.chain'_cons.mpr ⟨by decide, List.chain'_singleton 2⟩, ?_⟩
    intro x y hx hy
    simp only [List.head?_cons, Option.some_inj] at hx
    have hy2 : y = 2 := by
      simpa [List.getLast?_cons_cons] using hy.symm
    rw [← hx, hy2]
    decide
  obtain ⟨hmem, hnd, hne, _⟩ :=
    claim_C4_cycle_detection [1, 2] exC4deps [1, 2] hc
  exact ⟨hc, hmem, hnd, hne⟩

/-- C10: the sorted output of `topological_sort` consists exactly of the
distinct input nodes — duplicates appear once, and dependencies that are
not input nodes never appear; consequently `sorted_non_vocabulary_tables`
never reintroduces an excluded vocabulary table. -/
theorem claim_C10_output_is_distinct_inputs {α : Type} [DecidableEq α]
    (input : List α) (deps : α → List α)
    (metadata : List (String × List String)) (config : List (String × Bool)) :
    (topological_sort input deps).1.Nodup ∧
    (∀ x, x ∈ (topological_sort input deps).1 ↔ x ∈ input) ∧
    (sorted_non_vocabulary_tables metadata config).filter
      (fun t => decide (t ∈ get_vocabulary_table_names config)) = [] := by
  obtain ⟨hnd, hmem, _, _⟩ := topological_sort_spec input deps
  refine ⟨hnd, hmem, ?_⟩
  rw [List.filter_eq_nil_iff]
  intro t ht
  simp only [decide_eq_true_eq]
  intro hvocab
  unfold sorted_non_vocabulary_tables at ht
  obtain ⟨_, hmem2, _, _⟩ := topological_sort_spec
    ((metadata.map Prod.fst).filter
      (fun tn => decide (tn ∉ get_vocabulary_table_names config)))
    (fun tn => (dlookup tn metadata).getD [])
  have hin := (hmem2 t).mp ht
  rw [List.mem_filter] at hin
  have h2 : t ∉ get_vocabulary_table_names config := by simpa using hin.2
  exact h2 hvocab

/-- C1: for every executed story step the driver uses the registered row
generator's output as defaults (empty without one), inserts the defaults
merged with the provided values where the provided values win on key
collision, and resumes the story with the inserted values merged with the
database-returned values where the returned values win. -/
theorem claim_C1_story_step_merge {V : Type} (table_names : List String)
    (tgd : List (String × TableGenerator V)) (oracle : Oracle V)
    (committed pending : Conn V) (tn : String) (pv ret : Dict V)
    (resume : Dict V → Story V)
    (htn : tn ∈ table_names)
    (hor : oracle (committed ++ pending) tn
      (dictMerge (match dlookup tn tgd with
        | some tg => tg.gen (committed ++ pending)
        | none => []) pv) = .ok ret) :
    (populate_story table_names tgd oracle committed
        (.step tn pv resume) pending =
      match populate_story table_names tgd oracle committed
          (resume (dictMerge (dictMerge (match dlookup tn tgd with
            | some tg => tg.gen (committed ++ pending)
            | none => []) pv) ret))
          (pending ++ [(tn, dictMerge (match dlookup tn tgd with
            | some tg => tg.gen (committed ++ pending)
            | none => []) pv)]) with
      | .error e => .error e
      | .ok (p, cnt) => .ok (p, fun t => (if t = tn then 1 else 0) + cnt t)) ∧
    (∀ k v, dlookup k pv = some v →
      dlookup k (dictMerge (match dlookup tn tgd with
        | some tg => tg.gen (committed ++ pending)
        | none => []) pv) = some v) ∧
    (∀ k, dlookup k pv = none →
      dlookup k (dictMerge (match dlookup tn tgd with
        | some tg => tg.gen (committed ++ pending)
        | none => []) pv) =
      dlookup k (match dlookup tn tgd with
        | some tg => tg.gen (committed ++ pending)
        | none => [])) ∧
    (∀ k v, dlookup k ret = some v →
      dlookup k (dictMerge (dictMerge (match dlookup tn tgd with
        | some tg => tg.gen (committed ++ pending)
        | none => []) pv) ret) = some v) ∧
    (∀ k, dlookup k ret = none →
      dlookup k (dictMerge (dictMerge (match dlookup tn tgd with
        | some tg => tg.gen (committed ++ pending)
        | none => []) pv) ret) =
      dlookup k (dictMerge (match dlookup tn tgd with
        | some tg => tg.gen (committed ++ pending)
        | none => []) pv)) := by
  refine ⟨?_, ?_, ?_, ?_, ?_⟩
  · rw [populate_story_step table_names tgd oracle committed tn pv resume
      pending htn, hor]
  · intro k v hk
    exact dlookup_dictMerge_right k v _ pv hk
  · intro k hk
    exact dlookup_dictMerge_left k _ pv hk
  · intro k v hk
    exact dlookup_dictMerge_right k v _ ret hk
  · intro k hk
    exact dlookup_dictMerge_left k _ ret hk

/-- Table generator used by the C1 witness: defaults a=1, b=2. -/
def exC1tgd : List (String × TableGenerator Nat) :=
  [("t", ⟨1, fun _ => [("a", 1), ("b", 2)]⟩)]

/-- Oracle used by the C1 witness: every insert returns id=7. -/
def exC1oracle : Oracle Nat := fun _ _ _ => .ok [("id", 7)]

theorem claim_C1_story_step_merge_witness :
    ("t" ∈ ["t"] ∧
      exC1oracle ([] ++ []) "t"
        (dictMerge (match dlookup "t" exC1tgd with
          | some tg => tg.gen ([] ++ [])
          | none => []) [("b", 3)]) = .ok [("id", 7)]) ∧
    dlookup "b" (dictMerge (match dlookup "t" exC1tgd with
      | some tg => tg.gen ([] ++ [])
      | none => []) [("b", 3)]) = some 3 ∧
    dlookup "a" (dictMerge (match dlookup "t" exC1tgd with
      | some tg => tg.gen ([] ++ [])
      | none => []) [("b", 3)]) =
      dlookup "a" (match dlookup "t" exC1tgd with
        | some tg => tg.gen ([] ++ [])
        | none => []) ∧
    dlookup "id" (dictMerge (dictMerge (match dlookup "t" exC1tgd with
      | some tg => tg.gen ([] ++ [])
      | none => []) [("b", 3)]) [("id", 7)]) = some 7 := by
  have h := claim_C1_story_step_merge ["t"] exC1tgd exC1oracle [] [] "t"
    [("b", 3)] [("id", 7)] (fun _ => Story.done) (by decide) rfl
  exact ⟨⟨by decide, rfl⟩, h.2.1 "b" 3 rfl, h.2.2.1 "a" rfl,
    h.2.2.2.1 "id" 7 rfl⟩

/-- C3: each story's inserts are one transaction.  On success of the story
phase every story committed all its pending rows together, in order; on an
exception the committed state consists exactly of the rows of the fully
completed stories — the failing story contributed nothing — and the
exception propagates with that state. -/
theorem claim_C3_story_transactionality {V : Type} (table_names : List String)
    (tgd : List (String × TableGenerator V)) (oracle : Oracle V)
    (stories : List (Story V)) (committed : Conn V) :
    (∀ c2 counts,
      run_stories table_names tgd oracle stories committed = .ok (c2, counts) →
      ∃ ps, StoryRuns table_names tgd oracle committed stories ps ∧
        c2 = committed ++ ps.flatten) ∧
    (∀ c2 e,
      run_stories table_names tgd oracle stories committed = .error (c2, e) →
      ∃ k ps story, k < stories.length ∧ stories[k]? = some story ∧
        StoryRuns table_names tgd oracle committed (stories.take k) ps ∧
        c2 = committed ++ ps.flatten ∧
        populate_story table_names tgd oracle c2 story [] = .error e) :=
  ⟨fun c2 counts h =>
      run_stories_ok table_names tgd oracle stories committed c2 counts h,
   fun c2 e h =>
      run_stories_error table_names tgd oracle stories committed c2 e h⟩

/-- Story used by the C3 witness: inserts one row into `t`, then fails
(`KeyError`) on a table that does not exist. -/
def exC3bad : Story Nat :=
  .step "t" [] (fun _ => .step "missing" [] (fun _ => .done))

theorem claim_C3_story_transactionality_witness :
    (run_stories ["t"] ([] : List (String × TableGenerator Nat))
        (fun _ _ _ => .ok []) [exC3bad] [] =
      .error ([], .keyError)) ∧
    (∃ k ps story, k < 1 ∧ [exC3bad][k]? = some story ∧
      StoryRuns ["t"] [] (fun _ _ _ => .ok []) [] ([exC3bad].take k) ps ∧
      ([] : Conn Nat) = [] ++ ps.flatten ∧
      populate_story ["t"] [] (fun _ _ _ => .ok []) [] story [] =
        .error .keyError) := by
  refine ⟨rfl, ?_⟩
  exact (claim_C3_story_transactionality ["t"] [] (fun _ _ _ => .ok [])
    [exC3bad] []).2 [] .keyError rfl

/-- C5: running the population entry point for `P` passes with a table
whose generator is configured for `R` rows per pass (and which no story
touches) yields exactly `P × R` as that table's final accumulated row
count. -/
theorem claim_C5_passes_times_rows {V : Type} (tables : List String)
    (tgd : List (String × TableGenerator V)) (sgl : List (StoryDescriptor V))
    (oracle : Oracle V) (t : String) (tg : TableGenerator V) (P : Nat)
    (committed c2 : Conn V) (counts : String → Nat)
    (htg : dlookup t tgd = some tg)
    (hcount : tables.count t = 1)
    (hav : ∀ sg ∈ sgl, StoryAvoids t sg.function)
    (hrun : create_db_data tables tgd sgl oracle P committed =
      .ok (c2, counts)) :
    counts t = P * tg.num_rows_per_pass := by
  have h := create_db_data_count tables tgd sgl oracle t tg htg hav P
    committed c2 counts hrun
  rw [hcount] at h
  simpa using h

/-- Extract a table's row count from a finished `create_db_data` run. -/
def okCount {V : Type}
    (r : Except (Conn V × DbError) (Conn V × (String → Nat)))
    (t : String) : Nat :=
  match r with
  | .ok p => p.2 t
  | .error _ => 0

/-- Generator table used by the C5 witness: table `t`, 2 rows per pass. -/
def exC5tgd : List (String × TableGenerator Nat) :=
  [("t", ⟨2, fun _ => []⟩)]

theorem claim_C5_passes_times_rows_witness :
    (dlookup "t" exC5tgd).isSome ∧ List.count "t" ["t"] = 1 ∧
    okCount (create_db_data ["t"] exC5tgd []
      (fun _ _ _ => .ok ([] : Dict Nat)) 3 []) "t" = 6 := by
  obtain ⟨r, hr⟩ : ∃ r, create_db_data ["t"] exC5tgd []
      (fun _ _ _ => .ok ([] : Dict Nat)) 3 [] = .ok r := ⟨_, rfl⟩
  have h6 := claim_C5_passes_times_rows ["t"] exC5tgd []
    (fun _ _ _ => .ok ([] : Dict Nat)) "t" ⟨2, fun _ => []⟩ 3 [] r.1 r.2
    rfl (by decide) (by simp) hr
  refine ⟨by decide, by decide, ?_⟩
  unfold okCount
  rw [hr]
  exact h6

/-- C6: within one run the unique-value generator never returns two equal
tuples for the same constraint scope, and when every candidate within the
attempt bound is already tracked it raises the distinct exhaustion error —
naming the constraint and bound — instead of returning a duplicate. -/
theorem claim_C6_unique_generator {V : Type} [DecidableEq V] :
    (∀ (g g3 : UniqueGenerator V) (fns : List (Nat → List V))
        (tups : List (List V)),
      uniqueGeneratorRun g fns = .ok (tups, g3) →
      tups.Nodup ∧ ∀ tup ∈ tups, tup ∉ g.seen) ∧
    (∀ (g : UniqueGenerator V) (fn : Nat → List V),
      (∀ j, j < g.max_tries → fn j ∈ g.seen) →
      uniqueGeneratorCall g fn =
        .error ⟨g.table_name, g.columns, g.max_tries⟩) :=
  ⟨fun g g3 fns tups h => uniqueGeneratorRun_nodup fns g g3 tups h,
   fun g fn h => uniqueGeneratorCall_exhausted g fn h⟩

/-- Fresh unique generator used by the C6 witness. -/
def exC6gen : UniqueGenerator Nat := ⟨["a"], "t", 2, []⟩

/-- Exhausted unique generator used by the C6 witness: the only candidate
is already tracked. -/
def exC6gen2 : UniqueGenerator Nat := ⟨["a"], "t2", 2, [[5]]⟩

/-- Candidate streams used by the C6 witness. -/
def exC6fns : List (Nat → List Nat) :=
  [fun _ => [1], fun i => if i = 0 then [1] else [2]]

/-- Extract the returned tuples of a finished unique-generator run. -/
def okTuples {V : Type}
    (r : Except UniqueExhausted (List (List V) × UniqueGenerator V)) :
    List (List V) :=
  match r with
  | .ok p => p.1
  | .error _ => []

theorem claim_C6_unique_generator_witness :
    (okTuples (uniqueGeneratorRun exC6gen exC6fns)).Nodup ∧
    ((∀ j, j < exC6gen2.max_tries → (fun _ => [5]) j ∈ exC6gen2.seen) ∧
      uniqueGeneratorCall exC6gen2 (fun _ => [5]) =
        .error ⟨exC6gen2.table_name, exC6gen2.columns, exC6gen2.max_tries⟩) := by
  constructor
  · obtain ⟨r, hr⟩ : ∃ r, uniqueGeneratorRun exC6gen exC6fns = .ok r :=
      ⟨_, rfl⟩
    have h := (claim_C6_unique_generator.1 exC6gen r.2 exC6fns r.1 hr).1
    unfold okTuples
    rw [hr]
    exact h
  · have hful : ∀ j, j < exC6gen2.max_tries →
        (fun _ => [5]) j ∈ exC6gen2.seen := by
      intro j _
      simp [exC6gen2]
    exact ⟨hful, claim_C6_unique_generator.2 exC6gen2 (fun _ => [5]) hful⟩

/-- The two vocabulary tables of the C7 evaluation: `a` with one foreign
key x → p.id and `b` with one foreign key y → q.id. -/
def exC7fkA : FK := ⟨"fk_a", "a", ["x"], ["p.id"]⟩

def exC7fkB : FK := ⟨"fk_b", "b", ["y"], ["q.id"]⟩

def exC7metadata : List (String × List FK) :=
  [("a", [exC7fkA]), ("b", [exC7fkB])]

def exC7meta_dict : List (String × List (String × List String)) :=
  [("a", [("x", ["p.id"])]), ("b", [("y", ["q.id"])])]

/-- C7 (evaluation of the defect): with two vocabulary tables `a`, `b` and
every database operation succeeding, `create_db_vocab` completes — but the
restore loop attaches BOTH restored constraints to the stale `vocab_table`
variable, i.e. to `b`, the last table of the first loop (and its drops were
never committed, so the originals also survive).  Afterwards table `b` has
a foreign-key (columns, target) pair `(x, p.id)` that it did not have
before the run, refuting the round-trip claim; the pair belongs to `a`. -/
theorem claim_C7_stale_restore_eval :
    create_db_vocab exC7metadata exC7meta_dict ["a", "b"]
        (fun _ => .ok) (fun _ => .ok) (fun _ => .ok) [exC7fkA, exC7fkB] =
      .ok ([exC7fkA, exC7fkB,
        ⟨"a_x_fkey", "b", ["x"], ["p.id"]⟩,
        ⟨"b_y_fkey", "b", ["y"], ["q.id"]⟩], ["a", "b"]) ∧
    (["x"], ["p.id"]) ∈ tableFkeyPairs "b"
      [exC7fkA, exC7fkB, ⟨"a_x_fkey", "b", ["x"], ["p.id"]⟩,
        ⟨"b_y_fkey", "b", ["y"], ["q.id"]⟩] ∧
    (["x"], ["p.id"]) ∉ tableFkeyPairs "b" [exC7fkA, exC7fkB] ∧
    (["x"], ["p.id"]) ∈ tableFkeyPairs "a" [exC7fkA, exC7fkB] := by
  refine ⟨by rfl, by decide, by decide, by decide⟩

/-- C8: during vocabulary constraint removal (i) with no fatal drop outcome
the run succeeds and removes exactly the constraints whose drop succeeded —
an `UndefinedObject` failure is a no-op and an integrity failure leaves its
constraint in place while processing continues; (ii) in `create_db_vocab`
non-fatal drop outcomes change nothing at all, in particular every table's
load is still attempted; (iii) any other database error during a drop — at
any constraint of any vocabulary table, i.e. whenever it is the first
fatal event the run reaches — propagates to the caller of either function;
and (iv) neither function ever swallows a fatal drop error: a normal
return implies no executed drop had a fatal outcome. -/
theorem claim_C8_drop_failure_policy :
    (∀ (metadata : List (String × List FK)) (dropO : FK → DropOutcome)
        (vocab : List String) (db : List FK),
      (∀ t ∈ vocab, (dlookup t metadata).isSome) →
      (∀ fk code, dropO fk ≠ .otherError code) →
      ∃ db2,
        remove_vocab_foreign_key_constraints metadata dropO vocab db =
          .ok db2 ∧
        ∀ k, k ∈ db2 ↔ k ∈ db ∧
          ¬∃ t ∈ vocab, ∃ fk ∈ (dlookup t metadata).getD [],
            dropO fk = .ok ∧ k.table = fk.table ∧ k.name = fk.name) ∧
    (∀ (metadata : List (String × List FK))
        (meta_dict : List (String × List (String × List String)))
        (vocab : List String) (dropO : FK → DropOutcome)
        (loadO : String → LoadOutcome) (addO : FK → AddOutcome)
        (db : List FK),
      (∀ fk code, dropO fk ≠ .otherError code) →
      create_db_vocab metadata meta_dict vocab dropO loadO addO db =
        create_db_vocab metadata meta_dict vocab (fun _ => .ok) loadO
          addO db) ∧
    (∀ (metadata : List (String × List FK)) (dropO : FK → DropOutcome)
        (t : String) (fk : FK) (fksPre fksRest : List FK) (code : Nat)
        (pre rest : List String) (db : List FK),
      dlookup t metadata = some (fksPre ++ fk :: fksRest) →
      (∀ f ∈ fksPre, ∀ c, dropO f ≠ .otherError c) →
      dropO fk = .otherError code →
      (∀ s ∈ pre, (dlookup s metadata).isSome) →
      (∀ s ∈ pre, ∀ f ∈ (dlookup s metadata).getD [], ∀ c,
        dropO f ≠ .otherError c) →
      remove_vocab_foreign_key_constraints metadata dropO
        (pre ++ t :: rest) db = .error (.dbError code)) ∧
    (∀ (metadata : List (String × List FK))
        (meta_dict : List (String × List (String × List String)))
        (dropO : FK → DropOutcome) (loadO : String → LoadOutcome)
        (addO : FK → AddOutcome) (t : String) (fk : FK)
        (fksPre fksRest : List FK) (code : Nat) (pre rest : List String)
        (db : List FK),
      dlookup t metadata = some (fksPre ++ fk :: fksRest) →
      (∀ f ∈ fksPre, ∀ c, dropO f ≠ .otherError c) →
      dropO fk = .otherError code →
      (∀ s ∈ pre, (dlookup s metadata).isSome) →
      (∀ s ∈ pre, ∀ f ∈ (dlookup s metadata).getD [], ∀ c,
        dropO f ≠ .otherError c) →
      (∀ s ∈ pre, ∀ c, loadO s ≠ .otherError c) →
      create_db_vocab metadata meta_dict (pre ++ t :: rest) dropO loadO
        addO db = .error (.dbError code)) ∧
    (∀ (metadata : List (String × List FK)) (dropO : FK → DropOutcome)
        (vocab : List String) (db db2 : List FK),
      remove_vocab_foreign_key_constraints metadata dropO vocab db =
        .ok db2 →
      ∀ t ∈ vocab, ∀ f ∈ (dlookup t metadata).getD [], ∀ code,
        dropO f ≠ .otherError code) ∧
    (∀ (metadata : List (String × List FK))
        (meta_dict : List (String × List (String × List String)))
        (vocab : List String) (dropO : FK → DropOutcome)
        (loadO : String → LoadOutcome) (addO : FK → AddOutcome)
        (db db2 : List FK) (loaded : List String),
      create_db_vocab metadata meta_dict vocab dropO loadO addO db =
        .ok (db2, loaded) →
      ∀ t ∈ vocab, ∀ f ∈ (dlookup t metadata).getD [], ∀ code,
        dropO f ≠ .otherError code) :=
  ⟨fun metadata dropO vocab db h1 h2 =>
      remove_vocab_ok metadata dropO vocab db h1 h2,
   fun metadata meta_dict vocab dropO loadO addO db h2 =>
      create_db_vocab_drop_irrelevant metadata meta_dict vocab dropO loadO
        addO db h2,
   fun metadata dropO t fk fksPre fksRest code pre rest db hlk hpre hd
       h1 h2 =>
      remove_vocab_fatal_at metadata dropO t fk fksPre fksRest code hlk
        hpre hd pre rest db h1 h2,
   fun metadata meta_dict dropO loadO addO t fk fksPre fksRest code pre
       rest db hlk hpre hd h1 h2 h3 =>
      create_db_vocab_fatal_at metadata meta_dict dropO loadO addO t fk
        fksPre fksRest code pre rest db hlk hpre hd h1 h2 h3,
   fun metadata dropO vocab db db2 h =>
      remove_vocab_ok_no_fatal metadata dropO vocab db db2 h,
   fun metadata meta_dict vocab dropO loadO addO db db2 loaded h =>
      create_db_vocab_ok_no_fatal metadata meta_dict vocab dropO loadO
        addO db db2 loaded h⟩

/-- Drop oracle of the C8 witness: the drop of `fk_a` hits an integrity
conflict, the drop of `fk_b` succeeds. -/
def exC8dropO : FK → DropOutcome :=
  fun fk => if fk.name = "fk_a" then .integrityError else .ok

/-- Second constraint of table `b` in the C8 fatal-position witness. -/
def exC8fkB2 : FK := ⟨"fk_b2", "b", ["z"], ["r.id"]⟩

/-- Metadata of the C8 fatal-position witness: the fatal drop hits the
second constraint of the second vocabulary table. -/
def exC8metadata : List (String × List FK) :=
  [("a", [exC7fkA]), ("b", [exC7fkB, exC8fkB2])]

/-- Drop oracle of the C8 fatal-position witness: only `fk_b2` — the last
constraint processed — raises a non-integrity database error. -/
def exC8fatalO : FK → DropOutcome :=
  fun fk => if fk.name = "fk_b2" then .otherError 7 else .ok

theorem claim_C8_drop_failure_policy_witness :
    ((∀ t ∈ ["a", "b"], (dlookup t exC7metadata).isSome) ∧
      (∀ fk code, exC8dropO fk ≠ .otherError code) ∧
      (∃ db2,
        remove_vocab_foreign_key_constraints exC7metadata exC8dropO
          ["a", "b"] [exC7fkA, exC7fkB] = .ok db2 ∧
        ∀ k, k ∈ db2 ↔ k ∈ [exC7fkA, exC7fkB] ∧
          ¬∃ t ∈ ["a", "b"], ∃ fk ∈ (dlookup t exC7metadata).getD [],
            exC8dropO fk = .ok ∧ k.table = fk.table ∧ k.name = fk.name)) ∧
    (create_db_vocab exC7metadata exC7meta_dict ["a", "b"] exC8dropO
        (fun _ => .ok) (fun _ => .ok) [exC7fkA, exC7fkB] =
      create_db_vocab exC7metadata exC7meta_dict ["a", "b"] (fun _ => .ok)
        (fun _ => .ok) (fun _ => .ok) [exC7fkA, exC7fkB]) ∧
    (exC8fatalO exC8fkB2 = .otherError 7 ∧
      remove_vocab_foreign_key_constraints exC8metadata exC8fatalO
        ["a", "b"] [exC7fkA, exC7fkB, exC8fkB2] = .error (.dbError 7) ∧
      create_db_vocab exC8metadata exC7meta_dict ["a", "b"] exC8fatalO
        (fun _ => .ok) (fun _ => .ok) [exC7fkA, exC7fkB, exC8fkB2] =
        .error (.dbError 7)) ∧
    ((∀ t ∈ ["a", "b"], ∀ f ∈ (dlookup t exC7metadata).getD [], ∀ code,
        exC8dropO f ≠ .otherError code) ∧
      (∀ t ∈ ["a", "b"], ∀ f ∈ (dlookup t exC7metadata).getD [], ∀ code,
        (fun _ => DropOutcome.ok) f ≠ .otherError code)) := by
  have h2 : ∀ fk code, exC8dropO fk ≠ DropOutcome.otherError code := by
    intro fk code
    unfold exC8dropO
    by_cases hn : fk.name = "fk_a" <;> simp [hn]
  have hsome : ∀ t ∈ ["a", "b"], (dlookup t exC7metadata).isSome := by
    intro t ht
    fin_cases ht <;> decide
  refine ⟨⟨hsome, h2, ?_⟩, ?_, ⟨rfl, ?_, ?_⟩, ?_, ?_⟩
  · exact claim_C8_drop_failure_policy.1 exC7metadata exC8dropO ["a", "b"]
      [exC7fkA, exC7fkB] hsome h2
  · exact claim_C8_drop_failure_policy.2.1 exC7metadata exC7meta_dict
      ["a", "b"] exC8dropO (fun _ => .ok) (fun _ => .ok)
      [exC7fkA, exC7fkB] h2
  · exact claim_C8_drop_failure_policy.2.2.1 exC8metadata exC8fatalO "b"
      exC8fkB2 [exC7fkB] [] 7 ["a"] [] [exC7fkA, exC7fkB, exC8fkB2]
      (by decide)
      (by
        intro f hf c
        simp only [List.mem_singleton] at hf
        subst hf
        simp [exC8fatalO, exC7fkB])
      rfl
      (by intro s hs; fin_cases hs <;> decide)
      (by
        intro s hs f hf c
        fin_cases hs
        simp [dlookup, exC8metadata, exC7fkA] at hf
        subst hf
        simp [exC8fatalO])
  · exact claim_C8_drop_failure_policy.2.2.2.1 exC8metadata exC7meta_dict
      exC8fatalO (fun _ => .ok) (fun _ => .ok) "b" exC8fkB2 [exC7fkB] [] 7
      ["a"] [] [exC7fkA, exC7fkB, exC8fkB2]
      (by decide)
      (by
        intro f hf c
        simp only [List.mem_singleton] at hf
        subst hf
        simp [exC8fatalO, exC7fkB])
      rfl
      (by intro s hs; fin_cases hs <;> decide)
      (by
        intro s hs f hf c
        fin_cases hs
        simp [dlookup, exC8metadata, exC7fkA] at hf
        subst hf
        simp [exC8fatalO])
      (by intro s hs c; simp)
  · obtain ⟨r, hr⟩ : ∃ r, remove_vocab_foreign_key_constraints
        exC7metadata exC8dropO ["a", "b"] [exC7fkA, exC7fkB] = .ok r :=
      ⟨_, rfl⟩
    exact claim_C8_drop_failure_policy.2.2.2.2.1 exC7metadata exC8dropO
      ["a", "b"] [exC7fkA, exC7fkB] r hr
  · obtain ⟨r, hr⟩ : ∃ r, create_db_vocab exC7metadata exC7meta_dict
        ["a", "b"] (fun _ => .ok) (fun _ => .ok) (fun _ => .ok)
        [exC7fkA, exC7fkB] = .ok r := ⟨_, rfl⟩
    exact claim_C8_drop_failure_policy.2.2.2.2.2 exC7metadata exC7meta_dict
      ["a", "b"] (fun _ => .ok) (fun _ => .ok) (fun _ => .ok)
      [exC7fkA, exC7fkB] r.1 r.2 hr

/-- C9: `create_db_vocab` returns exactly the vocabulary table names whose
load succeeded, in order: a table whose bulk load fails with an integrity
violation is absent, and later vocabulary tables still load and appear. -/
theorem claim_C9_loaded_tables (metadata : List (String × List FK))
    (meta_dict : List (String × List (String × List String)))
    (vocab : List String) (dropO : FK → DropOutcome)
    (loadO : String → LoadOutcome) (addO : FK → AddOutcome) (db : List FK)
    (h1 : ∀ t ∈ vocab, (dlookup t metadata).isSome)
    (h2 : ∀ fk code, dropO fk ≠ .otherError code)
    (h3 : ∀ t code, loadO t ≠ .otherError code)
    (h4 : ∀ t ∈ vocab, (dlookup t meta_dict).isSome)
    (h5 : ∀ fk code, addO fk ≠ .otherError code) :
    ∃ db2, create_db_vocab metadata meta_dict vocab dropO loadO addO db =
      .ok (db2, vocab.filter (fun t => decide (loadO t = .ok))) :=
  create_db_vocab_ok metadata meta_dict vocab dropO loadO addO db
    h1 h2 h3 h4 h5

/-- Metadata of the C9 witness: three vocabulary tables without foreign
keys. -/
def exC9metadata : List (String × List FK) :=
  [("a", []), ("b", []), ("c", [])]

def exC9meta_dict : List (String × List (String × List String)) :=
  [("a", []), ("b", []), ("c", [])]

/-- Load oracle of the C9 witness: loading `b` hits an integrity
violation. -/
def exC9loadO : String → LoadOutcome :=
  fun t => if t = "b" then .integrityError else .ok

theorem claim_C9_loaded_tables_witness :
    (∀ t code, exC9loadO t ≠ .otherError code) ∧
    ["a", "b", "c"].filter (fun t => decide (exC9loadO t = .ok)) =
      ["a", "c"] ∧
    (∃ db2, create_db_vocab exC9metadata exC9meta_dict ["a", "b", "c"]
        (fun _ => .ok) exC9loadO (fun _ => .ok) [] =
      .ok (db2,
        ["a", "b", "c"].filter (fun t => decide (exC9loadO t = .ok)))) := by
  have h3 : ∀ t code, exC9loadO t ≠ LoadOutcome.otherError code := by
    intro t code
    unfold exC9loadO
    by_cases ht : t = "b" <;> simp [ht]
  refine ⟨h3, by decide, ?_⟩
  exact claim_C9_loaded_tables exC9metadata exC9meta_dict ["a", "b", "c"]
    (fun _ => .ok) exC9loadO (fun _ => .ok) []
    (by intro t ht; fin_cases ht <;> decide)
    (by intro fk code; simp)
    h3
    (by intro t ht; fin_cases ht <;> decide)
    (by intro fk code; simp)

end SqlSynthGen
